import Mathlib

/-!
Verification development for the LLMWatcher DLP engine (src-tauri).

This file shallowly embeds the Rust sources of the repository:
  * `src/dlp.rs`            — placeholder generation, JSON / byte-level redaction
                              and unredaction;
  * `src/pattern_utils.rs`  — negative-context match filtering;
  * `src/cursor_proto.rs`   — Connect-RPC frame splitting and schema-less
                              protobuf string extraction;
  * `src/backends/codex.rs` — streaming SSE response metadata parsing;
  * `src/cursor_hooks.rs`   — IDE hook handlers.

Modelling conventions:
  * Rust `String` / `&str` are modelled as `List Char` (Unicode scalars);
    byte buffers (`&[u8]`, `Vec<u8>`) as `List Nat` with entries < 256.
  * Machine integers are `Nat` / `Int` with explicit reduction `% 2^w`
    where the Rust code relies on wrapping.
  * Compiled regexes are modelled as nonempty literal patterns (the regex
    subset exercised here); `find_iter` for a nonempty literal yields the
    leftmost non-overlapping occurrences, which is what `findIterB` computes.
  * Fallible code returns `Option` / `Except`; `std::fs` reads and the
    SQLite-backed pattern store are passed in as explicit parameters.
-/

/-- Rust strings as lists of Unicode scalar values. -/
abbrev Str := List Char

/-- `u8::is_ascii_lowercase` from the source (`'a'..='z'`). -/
def isAsciiLower (c : Char) : Bool := 97 ≤ c.toNat && c.toNat ≤ 122

/-- `u8::is_ascii_uppercase` from the source (`'A'..='Z'`). -/
def isAsciiUpper (c : Char) : Bool := 65 ≤ c.toNat && c.toNat ≤ 90

/-- `u8::is_ascii_digit` from the source (`'0'..='9'`). -/
def isAsciiDigit (c : Char) : Bool := 48 ≤ c.toNat && c.toNat ≤ 57

/-- The four ASCII character classes distinguished by `create_placeholder`. -/
inductive AsciiClass where
  | lower
  | upper
  | digit
  | other
deriving DecidableEq, Repr

/-- Class of a character, in the priority order the source tests them. -/
def asciiClassOf (c : Char) : AsciiClass :=
  if isAsciiLower c then .lower
  else if isAsciiUpper c then .upper
  else if isAsciiDigit c then .digit
  else .other

/-- Byte width of the UTF-8 encoding of a scalar value. -/
def utf8SizeC (c : Char) : Nat :=
  if c.toNat < 0x80 then 1
  else if c.toNat < 0x800 then 2
  else if c.toNat < 0x10000 then 3
  else 4

/-- UTF-8 encoding of one scalar value. -/
def utf8EncodeChar (c : Char) : List Nat :=
  let n := c.toNat
  if n < 0x80 then [n]
  else if n < 0x800 then [0xC0 + n / 64, 0x80 + n % 64]
  else if n < 0x10000 then
    [0xE0 + n / 4096, 0x80 + n / 64 % 64, 0x80 + n % 64]
  else
    [0xF0 + n / 262144, 0x80 + n / 4096 % 64, 0x80 + n / 64 % 64, 0x80 + n % 64]

/-- UTF-8 encoding of a string (Rust `str::as_bytes`). -/
def utf8Encode (s : Str) : List Nat := (s.map utf8EncodeChar).flatten

/-- Byte length of a string (Rust `str::len`). -/
def utf8Len (s : Str) : Nat := (utf8Encode s).length

/-- Width of a UTF-8 sequence as announced by its first byte
(0 marks an invalid leading byte). -/
def utf8Width (b : Nat) : Nat :=
  if b < 0x80 then 1
  else if b < 0xC0 then 0
  else if b < 0xE0 then 2
  else if b < 0xF0 then 3
  else if b < 0xF8 then 4
  else 0

/-- Raw scalar-value read of one UTF-8 sequence: `(codepoint, width)`.
Validity is not checked here; `utf8DecodeOne` verifies by re-encoding. -/
def utf8RawRead : List Nat → Option (Nat × Nat)
  | [] => none
  | b :: rest =>
    match utf8Width b with
    | 1 => some (b, 1)
    | 2 =>
      match rest with
      | c1 :: _ => some ((b - 0xC0) * 64 + c1 % 64, 2)
      | _ => none
    | 3 =>
      match rest with
      | c1 :: c2 :: _ => some ((b - 0xE0) * 4096 + c1 % 64 * 64 + c2 % 64, 3)
      | _ => none
    | 4 =>
      match rest with
      | c1 :: c2 :: c3 :: _ =>
        some ((b - 0xF0) * 262144 + c1 % 64 * 4096 + c2 % 64 * 64 + c3 % 64, 4)
      | _ => none
    | _ => none

/-- Strict decode of one scalar: the read is validated by re-encoding, which
rejects bad continuation bytes, overlong forms, surrogates and out-of-range
values exactly as `std::str::from_utf8` does. -/
def utf8DecodeOne (bytes : List Nat) : Option (Char × Nat) :=
  match utf8RawRead bytes with
  | none => none
  | some (cp, w) =>
    let c := Char.ofNat cp
    if utf8EncodeChar c = bytes.take w then some (c, w) else none

/-- Fuel-driven strict UTF-8 decoding loop. -/
def utf8DecodeGo : Nat → List Nat → Option Str
  | _, [] => some []
  | 0, _ :: _ => none
  | fuel + 1, b :: rest =>
    match utf8DecodeOne (b :: rest) with
    | none => none
    | some (c, w) =>
      match utf8DecodeGo fuel ((b :: rest).drop w) with
      | none => none
      | some s => some (c :: s)

/-- `std::str::from_utf8`: strict UTF-8 decoding of a byte buffer. -/
def utf8Decode? (bytes : List Nat) : Option Str := utf8DecodeGo bytes.length bytes

/-- Fuel-driven lossy decoding loop: an undecodable position yields one
U+FFFD and skips one byte. (`String::from_utf8_lossy` replaces maximal
invalid subparts; for the buffers analysed here — valid UTF-8, or isolated
invalid bytes such as `0x80` — the two coincide.  The lossy view is only
used to locate candidate matches; every replacement is still guarded by the
strict `utf8Decode?` check, as in the source.) -/
def utf8LossyGo : Nat → List Nat → Str
  | _, [] => []
  | 0, _ :: _ => []
  | fuel + 1, b :: rest =>
    match utf8DecodeOne (b :: rest) with
    | some (c, w) => c :: utf8LossyGo fuel ((b :: rest).drop w)
    | none => Char.ofNat 0xFFFD :: utf8LossyGo fuel rest

/-- `String::from_utf8_lossy`. -/
def utf8Lossy (bytes : List Nat) : Str := utf8LossyGo bytes.length bytes

/-! ### Literal pattern matching (the embedded regex fragment) -/

/-- Decidable prefix test. -/
def isPreL {α : Type} [DecidableEq α] : List α → List α → Bool
  | [], _ => true
  | _ :: _, [] => false
  | a :: as, b :: bs => if a = b then isPreL as bs else false

/-- Whether `p` occurs at position `i` of `l`. -/
def occursAtL {α : Type} [DecidableEq α] (p l : List α) (i : Nat) : Bool :=
  isPreL p (l.drop i)

/-- Whether `p` occurs anywhere in `l`. -/
def occursInL {α : Type} [DecidableEq α] (p : List α) : List α → Bool
  | [] => isPreL p []
  | a :: rest => isPreL p (a :: rest) || occursInL p rest

/-- `Regex::is_match` for a literal pattern. -/
def litIsMatch (pat text : Str) : Bool := occursInL pat text

/-- Scanning loop for `find_iter` of a nonempty literal: byte-offset spans of
the leftmost non-overlapping occurrences.  `b` is the byte offset of the
remaining suffix inside the whole text. -/
def findIterBGo (p : Str) : Nat → Nat → Str → List (Nat × Nat)
  | 0, _, _ => []
  | fuel + 1, b, rem =>
    if isPreL p rem then
      (b, b + utf8Len p) :: findIterBGo p fuel (b + utf8Len p) (rem.drop p.length)
    else
      match rem with
      | [] => []
      | c :: t => findIterBGo p fuel (b + utf8SizeC c) t

/-- `Regex::find_iter` for a literal pattern: spans in byte offsets of the
text, leftmost first, non-overlapping (empty literals yield no matches). -/
def findIterB (p : Str) (text : Str) : List (Nat × Nat) :=
  if p = [] then [] else findIterBGo p (text.length + 1) 0 text

/-! ### The placeholder generator (`dlp.rs::create_placeholder`) -/

/-- Reduce modulo `2^64` (`u64` wrapping). -/
def wrap64 (n : Nat) : Nat := n % 18446744073709551616

/-- `u64::rotate_left`. -/
def rotl64 (x n : Nat) : Nat := wrap64 (x * 2 ^ n) + x / 2 ^ (64 - n)

/-- State of the SipHash mixer. -/
structure SipState where
  v0 : Nat
  v1 : Nat
  v2 : Nat
  v3 : Nat

/-- One SipHash round. -/
def sipRound (s : SipState) : SipState :=
  let v0 := wrap64 (s.v0 + s.v1)
  let v1 := rotl64 s.v1 13
  let v1 := Nat.xor v1 v0
  let v0 := rotl64 v0 32
  let v2 := wrap64 (s.v2 + s.v3)
  let v3 := rotl64 s.v3 16
  let v3 := Nat.xor v3 v2
  let v0 := wrap64 (v0 + v3)
  let v3 := rotl64 v3 21
  let v3 := Nat.xor v3 v0
  let v2 := wrap64 (v2 + v1)
  let v1 := rotl64 v1 17
  let v1 := Nat.xor v1 v2
  let v2 := rotl64 v2 32
  ⟨v0, v1, v2, v3⟩

/-- `DefaultHasher::new()` hashing one `u32` (little-endian 4-byte write):
SipHash-1-3 with keys (0, 0), as used by `create_placeholder` to seed its
generator from the counter. -/
def sipHashU32 (x : Nat) : Nat :=
  let x := x % 4294967296
  let s : SipState :=
    ⟨0x736f6d6570736575, 0x646f72616e646f6d, 0x6c7967656e657261, 0x7465646279746573⟩
  let b : Nat := 4 * 2 ^ 56 + x
  let s := { s with v3 := Nat.xor s.v3 b }
  let s := sipRound s
  let s := { s with v0 := Nat.xor s.v0 b }
  let s := { s with v2 := Nat.xor s.v2 0xff }
  let s := sipRound (sipRound (sipRound s))
  Nat.xor (Nat.xor s.v0 s.v1) (Nat.xor s.v2 s.v3)

/-- The Knuth MMIX linear congruential step (`next_rand` in the source);
returns the updated seed, which is also the drawn value. -/
def lcgNext (seed : Nat) : Nat := wrap64 (seed * 6364136223846793005 + 1)

/-- Substitution of a single character: same ASCII class, driven by the
generator; non-alphanumeric characters are kept unchanged (and draw no
random value).  Returns the substitute and the updated seed. -/
def placeChar (seed : Nat) (c : Char) : Char × Nat :=
  if isAsciiLower c then
    let s2 := lcgNext seed
    (Char.ofNat (97 + s2 % 26), s2)
  else if isAsciiUpper c then
    let s2 := lcgNext seed
    (Char.ofNat (65 + s2 % 26), s2)
  else if isAsciiDigit c then
    let s2 := lcgNext seed
    (Char.ofNat (48 + s2 % 10), s2)
  else
    (c, seed)

/-- Character-by-character substitution threading the generator seed. -/
def placeChars (seed : Nat) : Str → Str
  | [] => []
  | c :: rest =>
    let p := placeChar seed c
    p.1 :: placeChars p.2 rest

/-- `dlp.rs::create_placeholder`: a same-length fake token seeded by hashing
the counter.  There is no regeneration step: the substitution is applied
exactly once. -/
def createPlaceholder (id : Nat) (original : Str) : Str :=
  placeChars (sipHashU32 id) original

/-! ### DLP data model and byte-level engine (`dlp.rs`) -/

/-- A detection record (`dlp.rs::DlpDetection`). -/
structure DlpDetectionM where
  pattern_name : Str
  pattern_type : Str
  original_value : Str
  placeholder : Str
  message_index : Option Int
deriving DecidableEq, Repr

/-- One enabled pattern group as produced by `get_enabled_dlp_patterns`:
`(name, pattern_type, compiled regexes)`.  The regexes are literal patterns
(see the header); the database read that assembles the groups is I/O, so the
group list is a parameter of the engine functions. -/
structure PatternGroup where
  name : Str
  ptype : Str
  regexes : List Str
deriving DecidableEq, Repr

/-- `replacements.iter().find(|(_, v)| *v == matched)`: look up an existing
placeholder by original value.  (The source map is a `HashMap`; since a
placeholder is only inserted when its original is absent, at most one entry
matches and iteration order is irrelevant.) -/
def lookupByValue (reps : List (Str × Str)) (v : Str) : Option Str :=
  match reps.find? (fun e => decide (e.2 = v)) with
  | some e => some e.1
  | none => none

/-- The two panics reachable in `apply_dlp_redaction_to_bytes`:
`&data[start..end]` with `end > data.len()`, and `copy_from_slice` with
mismatched lengths. -/
inductive BytePanic where
  | sliceOOB
  | copyMismatch
deriving DecidableEq, Repr

/-- In-place overwrite `result[start..start+len].copy_from_slice(repl)`,
written as a splice. -/
def spliceBytes (result : List Nat) (start len : Nat) (repl : List Nat) : List Nat :=
  result.take start ++ repl ++ result.drop (start + len)

/-- State threaded through `apply_dlp_redaction_to_bytes`:
result buffer, replacement map (placeholder, original), detections, counter. -/
structure ByteRedSt where
  result : List Nat
  reps : List (Str × Str)
  dets : List DlpDetectionM
  counter : Nat

/-- Body of the per-match loop of `apply_dlp_redaction_to_bytes`: bounds
check for `&data[start..end]`, strict re-validation of the matched bytes,
placeholder reuse or creation, and the in-place overwrite. -/
def redactBytesMatch (data : List Nat) (nm ty pat : Str) (st : ByteRedSt)
    (span : Nat × Nat) : Except BytePanic ByteRedSt :=
  if data.length < span.2 then .error .sliceOOB
  else
    match utf8Decode? ((data.drop span.1).take (span.2 - span.1)) with
    | some orig =>
      if orig = pat then
        match lookupByValue st.reps pat with
        | some pl =>
          let pb := utf8Encode pl
          if pb.length = span.2 - span.1 then
            .ok { st with result := spliceBytes st.result span.1 (span.2 - span.1) pb }
          else .error .copyMismatch
        | none =>
          let pl := createPlaceholder st.counter pat
          let pb := utf8Encode pl
          if pb.length = span.2 - span.1 then
            .ok { result := spliceBytes st.result span.1 (span.2 - span.1) pb,
                  reps := st.reps ++ [(pl, pat)],
                  dets := st.dets ++ [⟨nm, ty, pat, pl, none⟩],
                  counter := st.counter + 1 }
          else .error .copyMismatch
      else .ok st
    | none => .ok st

/-- Loop over the spans of one regex. -/
def redactBytesSpans (data : List Nat) (nm ty pat : Str) :
    List (Nat × Nat) → ByteRedSt → Except BytePanic ByteRedSt
  | [], st => .ok st
  | sp :: rest, st =>
    match redactBytesMatch data nm ty pat st sp with
    | .error e => .error e
    | .ok st2 => redactBytesSpans data nm ty pat rest st2

/-- Loop over the regexes of one pattern group; matches are found on the
lossy view of the original `data`, not on the evolving result. -/
def redactBytesRegexes (data : List Nat) (text : Str) (nm ty : Str) :
    List Str → ByteRedSt → Except BytePanic ByteRedSt
  | [], st => .ok st
  | pat :: rest, st =>
    match redactBytesSpans data nm ty pat (findIterB pat text) st with
    | .error e => .error e
    | .ok st2 => redactBytesRegexes data text nm ty rest st2

/-- Loop over the pattern groups. -/
def redactBytesGroups (data : List Nat) (text : Str) :
    List PatternGroup → ByteRedSt → Except BytePanic ByteRedSt
  | [], st => .ok st
  | g :: rest, st =>
    match redactBytesRegexes data text g.name g.ptype g.regexes st with
    | .error e => .error e
    | .ok st2 => redactBytesGroups data text rest st2

/-- `dlp.rs::apply_dlp_redaction_to_bytes`: scan the lossy UTF-8 view of the
buffer for pattern matches, re-validate each matched byte range strictly, and
overwrite it in place with a same-length placeholder.  Returns the modified
bytes, the replacement map and the detections; a Rust panic is modelled as
`Except.error`. -/
def applyDlpRedactionToBytes (patterns : List PatternGroup) (data : List Nat) :
    Except BytePanic (List Nat × List (Str × Str) × List DlpDetectionM) :=
  if patterns.isEmpty then .ok (data, [], [])
  else
    match redactBytesGroups data (utf8Lossy data) patterns ⟨data, [], [], 1⟩ with
    | .error e => .error e
    | .ok st => .ok (st.result, st.reps, st.dets)

/-- The scanning loop shared by `apply_dlp_unredaction_to_bytes` and Rust's
`String::replace`: replace every non-overlapping occurrence of `p` by `o`,
left to right, continuing after each replacement.  The source loop relies on
`len(o) == len(p)` (`copy_from_slice`) and never terminates for `p = []`;
both cases are totalized here and reinstated as hypotheses where a theorem
needs them. -/
def replaceAllGo {α : Type} [DecidableEq α] (p o : List α) : Nat → List α → List α
  | _, [] => []
  | 0, rem => rem
  | fuel + 1, a :: rest =>
    if p ≠ [] ∧ isPreL p (a :: rest) = true then
      o ++ replaceAllGo p o fuel ((a :: rest).drop p.length)
    else
      a :: replaceAllGo p o fuel rest

/-- Entry point of the replacement scan. -/
def replaceAllL {α : Type} [DecidableEq α] (p o rem : List α) : List α :=
  replaceAllGo p o rem.length rem

/-- `dlp.rs::apply_dlp_unredaction_to_bytes`: scan for each placeholder's
byte sequence and overwrite it in place with the original's bytes.  The
`HashMap` iteration order is arbitrary in the source; it is modelled as the
list order, and the theorems below only depend on single-entry maps. -/
def applyDlpUnredactionToBytes (reps : List (Str × Str)) (data : List Nat) : List Nat :=
  if reps.isEmpty then data
  else reps.foldl (fun result e => replaceAllL (utf8Encode e.1) (utf8Encode e.2) result) data

/-- `dlp.rs::apply_dlp_unredaction`: `String::replace` of each placeholder by
its original on a text body. -/
def applyDlpUnredaction (reps : List (Str × Str)) (body : Str) : Str :=
  if reps.isEmpty then body
  else reps.foldl (fun result e => replaceAllL e.1 e.2 result) body

/-! ### Pattern utilities (`pattern_utils.rs`) -/

/-- `pattern_utils.rs::NEGATIVE_CONTEXT_WINDOW`. -/
def NEGATIVE_CONTEXT_WINDOW : Nat := 30

/-- `text[..b].chars().count()`: number of scalars in the first `b` bytes.
(The source slices at byte positions coming from regex matches, which are
scalar boundaries; a mid-scalar position is totalized by stopping early.) -/
def charCountPrefix : Str → Nat → Nat
  | [], _ => 0
  | c :: rest, b => if utf8SizeC c ≤ b then 1 + charCountPrefix rest (b - utf8SizeC c) else 0

/-- `pattern_utils.rs::get_match_context`: the scalar slice
`chars[char_start - 30 .. min (char_end + 30) len]` around the byte span
`[s, e)` of a match. -/
def getMatchContext (text : Str) (s e : Nat) : Str :=
  let charStart := charCountPrefix text s
  let charEnd := charCountPrefix text e
  let ctxStart := charStart - NEGATIVE_CONTEXT_WINDOW
  let ctxEnd := min (charEnd + NEGATIVE_CONTEXT_WINDOW) text.length
  (text.take ctxEnd).drop ctxStart

/-- `pattern_utils.rs::is_match_excluded_by_context`. -/
def isMatchExcludedByContext (text : Str) (s e : Nat) (negs : List Str) : Bool :=
  if negs.isEmpty then false
  else negs.any (fun n => litIsMatch n (getMatchContext text s e))

/-- `pattern_utils.rs::count_unique_chars`. -/
def countUniqueChars (s : Str) : Nat := s.eraseDups.length

/-- Inner loop of `collect_matches_with_negative_context` over one literal
regex's match spans: dedup against `seen`, context exclusion, and the
`min_unique_chars` floor.  For a literal pattern every matched string is the
pattern itself. -/
def collectFromSpans (text pat : Str) (negs : List Str) (minUnique : Int) :
    List (Nat × Nat) → List Str → List Str → List Str × List Str
  | [], seen, acc => (seen, acc)
  | sp :: rest, seen, acc =>
    if pat ∈ seen then collectFromSpans text pat negs minUnique rest seen acc
    else if isMatchExcludedByContext text sp.1 sp.2 negs then
      collectFromSpans text pat negs minUnique rest seen acc
    else if 0 < minUnique ∧ (countUniqueChars pat : Int) < minUnique then
      collectFromSpans text pat negs minUnique rest seen acc
    else collectFromSpans text pat negs minUnique rest (seen ++ [pat]) (acc ++ [pat])

/-- `pattern_utils.rs::collect_matches_with_negative_context` for literal
regexes (returns the `matches` field of the `MatchResult`). -/
def collectMatchesWithNegativeContext (text : Str) (regexes negs : List Str)
    (minUnique : Int) : List Str :=
  (regexes.foldl
    (fun st pat => collectFromSpans text pat negs minUnique (findIterB pat text) st.1 st.2)
    ([], [])).2

/-- Modelled from the claim wording: the context window as "up to 30 Unicode
scalars before the match, the matched text itself, and up to 30 Unicode
scalars after the match" — to be compared with `getMatchContext`. -/
def claimContextWindow (text : Str) (s e : Nat) : Str :=
  let charStart := charCountPrefix text s
  let charEnd := charCountPrefix text e
  let pre := text.take charStart
  let suf := text.drop charEnd
  pre.drop (pre.length - NEGATIVE_CONTEXT_WINDOW) ++ (text.take charEnd).drop charStart ++
    suf.take NEGATIVE_CONTEXT_WINDOW

/-- Modelled from the claim wording: the same collection loop with the
context-exclusion check removed — what collection must degenerate to when
the negative set is empty. -/
def collectFromSpansNC (pat : Str) (minUnique : Int) :
    List (Nat × Nat) → List Str → List Str → List Str × List Str
  | [], seen, acc => (seen, acc)
  | _ :: rest, seen, acc =>
    if pat ∈ seen then collectFromSpansNC pat minUnique rest seen acc
    else if 0 < minUnique ∧ (countUniqueChars pat : Int) < minUnique then
      collectFromSpansNC pat minUnique rest seen acc
    else collectFromSpansNC pat minUnique rest (seen ++ [pat]) (acc ++ [pat])

/-- Modelled from the claim wording: collection without any context
filtering. -/
def collectMatchesNoContextCheck (text : Str) (regexes : List Str)
    (minUnique : Int) : List Str :=
  (regexes.foldl
    (fun st pat => collectFromSpansNC pat minUnique (findIterB pat text) st.1 st.2)
    ([], [])).2

/-! ### JSON model (`serde_json` values) -/

/-- JSON values as `serde_json` represents them: the default object
representation is a `BTreeMap`, so object fields are kept sorted by key and
unique (duplicate keys: last insertion wins).  Numbers are modelled as
integers — the payloads these claims exercise carry only integers. -/
inductive Json where
  | null
  | bool (b : Bool)
  | num (n : Int)
  | str (s : Str)
  | arr (items : List Json)
  | obj (fields : List (Str × Json))

/-- Scalar-wise lexicographic order on strings (for scalar values this
agrees with Rust's byte-wise `Ord` on `String`, the `BTreeMap` key order). -/
def strLtB : Str → Str → Bool
  | [], [] => false
  | [], _ :: _ => true
  | _ :: _, [] => false
  | a :: as, b :: bs =>
    if a.toNat < b.toNat then true
    else if b.toNat < a.toNat then false
    else strLtB as bs

/-- `BTreeMap::insert`: insert a field keeping keys sorted and unique. -/
def insertField (k : Str) (v : Json) : List (Str × Json) → List (Str × Json)
  | [] => [(k, v)]
  | f :: rest =>
    if strLtB k f.1 then (k, v) :: f :: rest
    else if k = f.1 then (k, v) :: rest
    else f :: insertField k v rest

/-- Build an object from fields in writing order (sorted, last wins). -/
def mkObj (fields : List (Str × Json)) : Json :=
  .obj (fields.foldl (fun acc f => insertField f.1 f.2 acc) [])

/-- Field lookup in an object's field list. -/
def lookupField : List (Str × Json) → Str → Option Json
  | [], _ => none
  | f :: rest, key => if f.1 = key then some f.2 else lookupField rest key

/-- `Value::get(key)`. -/
def Json.getField : Json → Str → Option Json
  | .obj fields, key => lookupField fields key
  | _, _ => none

/-- `v.get(key).and_then(|x| x.as_str()).unwrap_or("")`. -/
def getStrD (j : Json) (key : Str) : Str :=
  match j.getField key with
  | some (.str s) => s
  | _ => []

/-- `Value::as_i64`. -/
def Json.asInt? : Json → Option Int
  | .num n => if -(2 ^ 63) ≤ n ∧ n < 2 ^ 63 then some n else none
  | _ => none

/-- `get_mut(key)` followed by writing the value: replaces the value of an
existing key, leaves everything else (including non-objects) unchanged. -/
def setFieldExisting : Json → Str → Json → Json
  | .obj fields, key, v => .obj (fields.map (fun f => if f.1 = key then (f.1, v) else f))
  | j, _, _ => j

/-- The opening brace character. -/
def lbrace : Char := Char.ofNat 123

/-- The closing brace character. -/
def rbrace : Char := Char.ofNat 125

/-- Skip JSON whitespace. -/
def skipWs : Str → Str
  | [] => []
  | c :: rest =>
    if c = ' ' ∨ c = '\n' ∨ c = '\t' ∨ c = '\r' then skipWs rest else c :: rest

/-- Parse the body of a JSON string literal after the opening quote,
handling the short escapes (the payloads analysed here use no `\u` escapes).
Returns the decoded content and the input after the closing quote. -/
def parseStringBody : Nat → Str → Option (Str × Str)
  | _, [] => none
  | 0, _ => none
  | fuel + 1, c :: rest =>
    if c = '"' then some ([], rest)
    else if c = '\\' then
      match rest with
      | [] => none
      | e :: rest2 =>
        let dec : Option Char :=
          if e = '"' then some '"'
          else if e = '\\' then some '\\'
          else if e = '/' then some '/'
          else if e = 'n' then some '\n'
          else if e = 't' then some '\t'
          else if e = 'r' then some '\r'
          else if e = 'b' then some (Char.ofNat 8)
          else if e = 'f' then some (Char.ofNat 12)
          else none
        match dec with
        | none => none
        | some d =>
          match parseStringBody fuel rest2 with
          | some (s, r) => some (d :: s, r)
          | none => none
    else if c.toNat < 32 then none
    else
      match parseStringBody fuel rest with
      | some (s, r) => some (c :: s, r)
      | none => none

/-- Split a leading run of ASCII digits. -/
def digitsSplit : Str → Str × Str
  | [] => ([], [])
  | c :: rest =>
    if isAsciiDigit c then
      let r := digitsSplit rest
      (c :: r.1, r.2)
    else ([], c :: rest)

/-- Decimal value of a digit run. -/
def digitsToNat (ds : Str) : Nat := ds.foldl (fun acc c => acc * 10 + (c.toNat - 48)) 0

/-- Parse an integer JSON number starting at `c :: rest` (fractions and
exponents, which the analysed payloads never carry, are rejected). -/
def parseIntNum (c : Char) (rest : Str) : Option (Json × Str) :=
  let start := if c = '-' then rest else c :: rest
  let d := digitsSplit start
  if d.1 = [] then none
  else if 1 < d.1.length ∧ d.1.head? = some '0' then none
  else
    match d.2 with
    | x :: _ => if x = '.' ∨ x = 'e' ∨ x = 'E' then none else
        some (.num (if c = '-' then -(digitsToNat d.1 : Int) else (digitsToNat d.1 : Int)), d.2)
    | [] => some (.num (if c = '-' then -(digitsToNat d.1 : Int) else (digitsToNat d.1 : Int)), d.2)

/-- The three states of the recursive-descent JSON reader: a value, the rest
of an array after an element, the rest of an object after an entry. -/
inductive ParseTask where
  | value (s : Str)
  | arrRest (s : Str) (acc : List Json)
  | objRest (s : Str) (acc : List (Str × Json))

/-- Fuel-driven recursive-descent JSON reader (models `serde_json::from_str`
on the integer-only, short-escape fragment of JSON). -/
def parseStep : Nat → ParseTask → Option (Json × Str)
  | 0, _ => none
  | fuel + 1, .value s =>
    match skipWs s with
    | [] => none
    | c :: rest =>
      if c = '"' then
        match parseStringBody (fuel + 1) rest with
        | some (str, r) => some (.str str, r)
        | none => none
      else if c = lbrace then
        match skipWs rest with
        | c2 :: r2 =>
          if c2 = rbrace then some (.obj [], r2)
          else parseStep fuel (.objRest (skipWs rest) [])
        | [] => none
      else if c = '[' then
        match skipWs rest with
        | c2 :: r2 =>
          if c2 = ']' then some (.arr [], r2)
          else parseStep fuel (.arrRest (skipWs rest) [])
        | [] => none
      else if c = 't' then
        if isPreL "rue".toList rest then some (.bool true, rest.drop 3) else none
      else if c = 'f' then
        if isPreL "alse".toList rest then some (.bool false, rest.drop 4) else none
      else if c = 'n' then
        if isPreL "ull".toList rest then some (.null, rest.drop 3) else none
      else if c = '-' ∨ isAsciiDigit c then parseIntNum c rest
      else none
  | fuel + 1, .arrRest s acc =>
    match parseStep fuel (.value s) with
    | none => none
    | some (v, r) =>
      match skipWs r with
      | c :: r2 =>
        if c = ',' then parseStep fuel (.arrRest r2 (acc ++ [v]))
        else if c = ']' then some (.arr (acc ++ [v]), r2)
        else none
      | [] => none
  | fuel + 1, .objRest s acc =>
    match skipWs s with
    | c :: r =>
      if c = '"' then
        match parseStringBody (fuel + 1) r with
        | none => none
        | some (k, r2) =>
          match skipWs r2 with
          | c2 :: r3 =>
            if c2 = ':' then
              match parseStep fuel (.value r3) with
              | none => none
              | some (v, r4) =>
                match skipWs r4 with
                | c3 :: r5 =>
                  if c3 = ',' then parseStep fuel (.objRest r5 (insertField k v acc))
                  else if c3 = rbrace then some (.obj (insertField k v acc), r5)
                  else none
                | [] => none
            else none
          | _ => none
      else none
    | [] => none

/-- `serde_json::from_str` (on the embedded JSON fragment): the whole input
must be one value followed only by whitespace. -/
def parseJson (s : Str) : Option Json :=
  match parseStep (2 * s.length + 2) (.value s) with
  | some (v, r) => if skipWs r = [] then some v else none
  | none => none

/-- Escape one character for JSON string output (serde's compact writer). -/
def escapeJsonChar (c : Char) : Str :=
  if c = '"' then ['\\', '"']
  else if c = '\\' then ['\\', '\\']
  else if c = '\n' then ['\\', 'n']
  else if c = '\t' then ['\\', 't']
  else if c = '\r' then ['\\', 'r']
  else if c.toNat = 8 then ['\\', 'b']
  else if c.toNat = 12 then ['\\', 'f']
  else if c.toNat < 32 then
    let hex := fun (n : Nat) => if n < 10 then Char.ofNat (48 + n) else Char.ofNat (97 + n - 10)
    ['\\', 'u', '0', '0', hex (c.toNat / 16), hex (c.toNat % 16)]
  else [c]

mutual
/-- `serde_json::to_string`: compact serialization (object fields are
already sorted, as in the `BTreeMap`). -/
def serializeJson : Json → Str
  | .null => "null".toList
  | .bool true => "true".toList
  | .bool false => "false".toList
  | .num n => (toString n).toList
  | .str s => '"' :: s.flatMap escapeJsonChar ++ ['"']
  | .arr items => '[' :: serializeItems items ++ [']']
  | .obj fields => lbrace :: serializeFields fields ++ [rbrace]

/-- Comma-separated serialization of array items. -/
def serializeItems : List Json → Str
  | [] => []
  | [v] => serializeJson v
  | v :: rest => serializeJson v ++ ',' :: serializeItems rest

/-- Comma-separated serialization of object fields. -/
def serializeFields : List (Str × Json) → Str
  | [] => []
  | [f] => '"' :: f.1.flatMap escapeJsonChar ++ '"' :: ':' :: serializeJson f.2
  | f :: rest =>
    '"' :: f.1.flatMap escapeJsonChar ++ '"' :: ':' :: serializeJson f.2 ++
      ',' :: serializeFields rest
end

/-! ### Structured (JSON) DLP redaction (`dlp.rs`) -/

/-- State threaded through the structured redaction:
replacement map (placeholder, original), detections, counter. -/
structure RedState where
  reps : List (Str × Str)
  dets : List DlpDetectionM
  counter : Nat

/-- Per-match loop body of `redact_text`: reuse or mint a placeholder, then
`String::replace` every occurrence of the matched string in the current
result. -/
def redactTextMatches (nm ty : Str) (msgIdx : Option Int) :
    List Str → Str × RedState → Str × RedState
  | [], acc => acc
  | matched :: rest, (res, st) =>
    match lookupByValue st.reps matched with
    | some pl => redactTextMatches nm ty msgIdx rest (replaceAllL matched pl res, st)
    | none =>
      let pl := createPlaceholder st.counter matched
      redactTextMatches nm ty msgIdx rest
        (replaceAllL matched pl res,
          ⟨st.reps ++ [(pl, matched)], st.dets ++ [⟨nm, ty, matched, pl, msgIdx⟩],
            st.counter + 1⟩)

/-- Loop of `redact_text` over one group's regexes: the matches of each
regex are collected from the *current* result (for a literal every matched
string is the pattern itself). -/
def redactTextRegexes (nm ty : Str) (msgIdx : Option Int) :
    List Str → Str × RedState → Str × RedState
  | [], acc => acc
  | pat :: rest, (res, st) =>
    let found := (findIterB pat res).map (fun _ => pat)
    redactTextRegexes nm ty msgIdx rest (redactTextMatches nm ty msgIdx found (res, st))

/-- `dlp.rs::redact_text`: loop over all pattern groups. -/
def redactText (patterns : List PatternGroup) (msgIdx : Option Int)
    (text : Str) (st : RedState) : Str × RedState :=
  patterns.foldl (fun acc g => redactTextRegexes g.name g.ptype msgIdx g.regexes acc)
    (text, st)

mutual
/-- `dlp.rs::redact_value_recursive`: strings are redacted, arrays and
objects are walked, other scalars are untouched. -/
def redactValueRec (patterns : List PatternGroup) (msgIdx : Option Int) :
    Json → RedState → Json × RedState
  | .str s, st =>
    let r := redactText patterns msgIdx s st
    (.str r.1, r.2)
  | .arr items, st =>
    let r := redactListRec patterns msgIdx items st
    (.arr r.1, r.2)
  | .obj fields, st =>
    let r := redactFieldsRec patterns msgIdx fields st
    (.obj r.1, r.2)
  | v, st => (v, st)

/-- Walk of an array's items. -/
def redactListRec (patterns : List PatternGroup) (msgIdx : Option Int) :
    List Json → RedState → List Json × RedState
  | [], st => ([], st)
  | v :: rest, st =>
    let r1 := redactValueRec patterns msgIdx v st
    let r2 := redactListRec patterns msgIdx rest r1.2
    (r1.1 :: r2.1, r2.2)

/-- Walk of an object's field values. -/
def redactFieldsRec (patterns : List PatternGroup) (msgIdx : Option Int) :
    List (Str × Json) → RedState → List (Str × Json) × RedState
  | [], st => ([], st)
  | f :: rest, st =>
    let r1 := redactValueRec patterns msgIdx f.2 st
    let r2 := redactFieldsRec patterns msgIdx rest r1.2
    ((f.1, r1.1) :: r2.1, r2.2)
end

/-- Claude loop of `apply_dlp_redaction`: only elements of `messages[]`
whose role is `"user"` have their `content` redacted; every other element is
returned unchanged. -/
def processMessages (patterns : List PatternGroup) :
    Nat → List Json → RedState → List Json × RedState
  | _, [], st => ([], st)
  | idx, m :: rest, st =>
    if getStrD m "role".toList = "user".toList then
      match m.getField "content".toList with
      | some content =>
        let r := redactValueRec patterns (some (idx : Int)) content st
        let rr := processMessages patterns (idx + 1) rest r.2
        (setFieldExisting m "content".toList r.1 :: rr.1, rr.2)
      | none =>
        let rr := processMessages patterns (idx + 1) rest st
        (m :: rr.1, rr.2)
    else
      let rr := processMessages patterns (idx + 1) rest st
      (m :: rr.1, rr.2)

/-- Codex loop of `apply_dlp_redaction`: `message` items with role `"user"`
have their `content` redacted, `function_call_output` items their `output`;
every other item (`reasoning`, `function_call`, …) is returned unchanged. -/
def processInput (patterns : List PatternGroup) :
    Nat → List Json → RedState → List Json × RedState
  | _, [], st => ([], st)
  | idx, item :: rest, st =>
    let itemType := getStrD item "type".toList
    if itemType = "message".toList then
      if getStrD item "role".toList = "user".toList then
        match item.getField "content".toList with
        | some content =>
          let r := redactValueRec patterns (some (idx : Int)) content st
          let rr := processInput patterns (idx + 1) rest r.2
          (setFieldExisting item "content".toList r.1 :: rr.1, rr.2)
        | none =>
          let rr := processInput patterns (idx + 1) rest st
          (item :: rr.1, rr.2)
      else
        let rr := processInput patterns (idx + 1) rest st
        (item :: rr.1, rr.2)
    else if itemType = "function_call_output".toList then
      match item.getField "output".toList with
      | some out =>
        let r := redactValueRec patterns (some (idx : Int)) out st
        let rr := processInput patterns (idx + 1) rest r.2
        (setFieldExisting item "output".toList r.1 :: rr.1, rr.2)
      | none =>
        let rr := processInput patterns (idx + 1) rest st
        (item :: rr.1, rr.2)
    else
      let rr := processInput patterns (idx + 1) rest st
      (item :: rr.1, rr.2)

/-- The JSON transformation at the heart of `apply_dlp_redaction`: process
the Claude `messages[]` array, then the Codex `input[]` array, threading the
replacement map, detections and counter (counter starts at 1). -/
def redactJsonTop (patterns : List PatternGroup) (j : Json) : Json × RedState :=
  let step1 :=
    match j.getField "messages".toList with
    | some (.arr ms) =>
      let r := processMessages patterns 0 ms ⟨[], [], 1⟩
      (setFieldExisting j "messages".toList (.arr r.1), r.2)
    | _ => (j, ⟨[], [], 1⟩)
  match step1.1.getField "input".toList with
  | some (.arr items) =>
    let r := processInput patterns 0 items step1.2
    (setFieldExisting step1.1 "input".toList (.arr r.1), r.2)
  | _ => step1

/-- Result record of `apply_dlp_redaction`. -/
structure DlpRedactionResult where
  redacted_body : Str
  replacements : List (Str × Str)
  detections : List DlpDetectionM

/-- `dlp.rs::apply_dlp_redaction`: with no enabled pattern group, or a body
that does not parse as JSON, the body is returned unchanged with empty
replacement map and detections; otherwise the parsed value is transformed
and re-serialized. -/
def applyDlpRedaction (patterns : List PatternGroup) (body : Str) : DlpRedactionResult :=
  if patterns.isEmpty then ⟨body, [], []⟩
  else
    match parseJson body with
    | none => ⟨body, [], []⟩
    | some j =>
      let r := redactJsonTop patterns j
      ⟨serializeJson r.1, r.2.reps, r.2.dets⟩

/-! ### Codex backend response parsing (`backends/codex.rs`) -/

/-- Modelled from the spec: the `tool_calls` entries `{id, name, input_json}`
of the normalized response record (§3 `NormalizedResponseMetadata`).  The
`ToolCall` struct declaration itself lives in a module not present under
`src/`; its field shape is fixed by its construction in `codex.rs`
(`ToolCall { id: call_id, name, input }`). -/
structure ToolCall where
  id : Str
  name : Str
  input : Json

/-- `requestresponsemetadata.rs::ResponseMetadata`, together with the
`tool_calls` field that `codex.rs` reads and writes (see `ToolCall`). -/
structure ResponseMetadataM where
  input_tokens : Int
  output_tokens : Int
  cache_read_tokens : Int
  cache_creation_tokens : Int
  stop_reason : Option Str
  has_thinking : Bool
  tool_calls : List ToolCall

/-- `ResponseMetadata::default()`. -/
def defaultResponseMetadata : ResponseMetadataM := ⟨0, 0, 0, 0, none, false, []⟩

/-- `i64 as i32`: two's-complement truncation. -/
def wrapI32 (n : Int) : Int := (n + 2147483648) % 4294967296 - 2147483648

/-- Split a string at every newline (keeping empty segments). -/
def splitOnNL : Str → List Str
  | [] => [[]]
  | c :: rest =>
    if c = '\n' then [] :: splitOnNL rest
    else
      match splitOnNL rest with
      | l :: ls => (c :: l) :: ls
      | [] => [[c]]

/-- `str::lines`: newline-separated lines, without a final empty segment,
each without a trailing carriage return. -/
def rustLines (s : Str) : List Str :=
  if s = [] then []
  else
    let parts := splitOnNL s
    let parts := if parts.getLast? = some [] then parts.dropLast else parts
    parts.map (fun l => if l.getLast? = some '\r' then l.dropLast else l)

/-- The parsed JSON events of the `data: `-prefixed SSE lines; lines without
the prefix, or whose payload does not parse, are skipped exactly as the
source loop `continue`s over them. -/
def dataEvents (body : Str) : List Json :=
  (rustLines body).filterMap
    (fun l => if isPreL "data: ".toList l then parseJson (l.drop 6) else none)

/-- `HashMap::insert` on the function-call accumulator (overwrites an
existing key in place, appends a new one). -/
def insertAssoc (k : Str) (v : Str × Str × Str) :
    List (Str × (Str × Str × Str)) → List (Str × (Str × Str × Str))
  | [] => [(k, v)]
  | e :: rest => if e.1 = k then (k, v) :: rest else e :: insertAssoc k v rest

/-- `HashMap::get_mut` followed by an update, as a map-if-present. -/
def updateAssoc (k : Str) (f : Str × Str × Str → Str × Str × Str) :
    List (Str × (Str × Str × Str)) → List (Str × (Str × Str × Str))
  | [] => []
  | e :: rest => if e.1 = k then (e.1, f e.2) :: rest else e :: updateAssoc k f rest

/-- `HashMap::contains_key`. -/
def containsAssoc (k : Str) (m : List (Str × (Str × Str × Str))) : Bool :=
  (m.find? (fun e => decide (e.1 = k))).isSome

/-- One event of the streaming loop of
`CodexBackend::parse_response_metadata`: `response.output_item.added` starts
a function call keyed by `item.id`, remembering `(call_id, name, "")`;
`response.function_call_arguments.delta` appends the fragment to the entry
matched by `item_id`; `response.completed` sets `stop_reason` and usage and
inserts the function calls of the final `output[]` that are not already
tracked. -/
def codexEventStep (st : List (Str × (Str × Str × Str)) × ResponseMetadataM)
    (ev : Json) : List (Str × (Str × Str × Str)) × ResponseMetadataM :=
  let fcm := st.1
  let meta := st.2
  let evType := getStrD ev "type".toList
  if evType = "response.output_item.added".toList then
    match ev.getField "item".toList with
    | some item =>
      match item.getField "type".toList with
      | some (.str t) =>
        if t = "function_call".toList then
          (insertAssoc (getStrD item "id".toList)
            (getStrD item "call_id".toList, getStrD item "name".toList, []) fcm, meta)
        else (fcm, meta)
      | _ => (fcm, meta)
    | none => (fcm, meta)
  else if evType = "response.function_call_arguments.delta".toList then
    match ev.getField "item_id".toList with
    | some (.str itemId) =>
      match ev.getField "delta".toList with
      | some (.str d) => (updateAssoc itemId (fun v => (v.1, v.2.1, v.2.2 ++ d)) fcm, meta)
      | _ => (fcm, meta)
    | _ => (fcm, meta)
  else if evType = "response.completed".toList then
    match ev.getField "response".toList with
    | some resp =>
      let meta1 :=
        match resp.getField "status".toList with
        | some (.str status) => { meta with stop_reason := some status }
        | _ => meta
      let meta2 :=
        match resp.getField "usage".toList with
        | some usage =>
          let m := { meta1 with
            input_tokens :=
              wrapI32 (((usage.getField "input_tokens".toList).bind Json.asInt?).getD 0),
            output_tokens :=
              wrapI32 (((usage.getField "output_tokens".toList).bind Json.asInt?).getD 0) }
          match usage.getField "input_tokens_details".toList with
          | some details =>
            { m with cache_read_tokens :=
                wrapI32 (((details.getField "cached_tokens".toList).bind Json.asInt?).getD 0) }
          | none => m
        | none => meta1
      let fcm2 :=
        match resp.getField "output".toList with
        | some (.arr out) =>
          out.foldl
            (fun acc item =>
              match item.getField "type".toList with
              | some (.str t) =>
                if t = "function_call".toList then
                  if containsAssoc (getStrD item "id".toList) acc then acc
                  else
                    acc ++ [(getStrD item "id".toList,
                      (getStrD item "call_id".toList, getStrD item "name".toList,
                        getStrD item "arguments".toList))]
                else acc
              | _ => acc)
            fcm
        | _ => fcm
      (fcm2, meta2)
    | none => (fcm, meta)
  else (fcm, meta)

/-- `CodexBackend::parse_response_metadata` with `is_streaming = true`:
`has_thinking` from a substring check on the whole body, one pass over the
SSE `data: ` events, then the accumulated map becomes `tool_calls` (each
argument string parsed as JSON, `null` on failure).  The final `HashMap`
iteration order is arbitrary in Rust; the model uses insertion order, and
the claim's theorem depends only on a single-entry map. -/
def codexParseResponseMetadataStreaming (body : Str) : ResponseMetadataM :=
  let meta0 := { defaultResponseMetadata with
    has_thinking := occursInL "\"type\":\"reasoning\"".toList body }
  let r := (dataEvents body).foldl codexEventStep ([], meta0)
  { r.2 with tool_calls :=
      r.1.map (fun e => ⟨e.2.1, e.2.2.1, (parseJson e.2.2.2).getD Json.null⟩) }

/-- The `response.output_item.added` event shape of the claim: a
`function_call` item with `item.id = A`, external `call_id = X`, name `N`. -/
def codexAddedEvent (A X N : Str) : Json :=
  mkObj [("type".toList, Json.str "response.output_item.added".toList),
    ("item".toList,
      mkObj [("id".toList, Json.str A), ("call_id".toList, Json.str X),
        ("name".toList, Json.str N),
        ("type".toList, Json.str "function_call".toList)])]

/-- The `response.function_call_arguments.delta` event shape of the claim. -/
def codexDeltaEvent (A d : Str) : Json :=
  mkObj [("type".toList, Json.str "response.function_call_arguments.delta".toList),
    ("item_id".toList, Json.str A), ("delta".toList, Json.str d)]

/-- The `response.completed` event shape of the claim. -/
def codexCompletedEvent (resp : Json) : Json :=
  mkObj [("type".toList, Json.str "response.completed".toList),
    ("response".toList, resp)]

/-! ### Wire decoder (`cursor_proto.rs`) -/

/-- Loop of `cursor_proto.rs::read_varint`: accumulate 7-bit groups
little-endian-first (at most 10 bytes; the `u64` shift result wraps). -/
def readVarintGo : Nat → Nat → Nat → List Nat → Option (Nat × Nat)
  | _, _, _, [] => none
  | i, shift, acc, b :: rest =>
    if 10 ≤ i then none
    else
      let acc2 := Nat.lor acc (b % 128 * 2 ^ shift % 18446744073709551616)
      if b < 128 then some (acc2, i + 1)
      else readVarintGo (i + 1) (shift + 7) acc2 rest

/-- `cursor_proto.rs::read_varint`: `(value, bytes_consumed)`. -/
def readVarint (data : List Nat) : Option (Nat × Nat) := readVarintGo 0 0 0 data

/-- `u8::is_ascii_punctuation`. -/
def isAsciiPunct (c : Char) : Bool :=
  (33 ≤ c.toNat && c.toNat ≤ 47) || (58 ≤ c.toNat && c.toNat ≤ 64) ||
    (91 ≤ c.toNat && c.toNat ≤ 96) || (123 ≤ c.toNat && c.toNat ≤ 126)

/-- The printability test of `is_likely_text`: `is_alphanumeric`,
`is_whitespace`, `is_ascii_punctuation`, or above U+007F.  The first two are
Unicode predicates in Rust, but any scalar above 0x7F already satisfies the
last clause, so only their ASCII behaviour matters. -/
def isPrintableForText (c : Char) : Bool :=
  (isAsciiLower c || isAsciiUpper c || isAsciiDigit c) ||
    (c.toNat = 32 || (9 ≤ c.toNat && c.toNat ≤ 13)) ||
    isAsciiPunct c || decide (127 < c.toNat)

/-- `cursor_proto.rs::is_likely_text`: valid UTF-8, at least 2 bytes, and at
least 80% printable scalars. -/
def isLikelyText (data : List Nat) : Bool :=
  match utf8Decode? data with
  | none => false
  | some text =>
    if data.length < 2 then false
    else 80 ≤ (text.filter isPrintableForText).length * 100 / text.length

/-- `u8::is_ascii_hexdigit`. -/
def isAsciiHexDigit (c : Char) : Bool :=
  isAsciiDigit c || (97 ≤ c.toNat && c.toNat ≤ 102) || (65 ≤ c.toNat && c.toNat ≤ 70)

/-- Split a string at every occurrence of a separator character. -/
def splitOnChar (sep : Char) : Str → List Str
  | [] => [[]]
  | c :: rest =>
    if c = sep then [] :: splitOnChar sep rest
    else
      match splitOnChar sep rest with
      | l :: ls => (c :: l) :: ls
      | [] => [[c]]

/-- `cursor_proto.rs::looks_like_id`: long hex strings, UUIDv4 shape, and
long spaceless base64-looking strings. -/
def looksLikeId (s : Str) : Bool :=
  if 20 < utf8Len s ∧ s.all isAsciiHexDigit then true
  else if utf8Len s = 36 ∧ (s.filter (fun c => decide (c = '-'))).length = 4 ∧
      (splitOnChar '-' s).length = 5 ∧
      (splitOnChar '-' s).all (fun p => p.all isAsciiHexDigit) then true
  else if 30 < utf8Len s ∧ ¬ ' ' ∈ s ∧
      s.all (fun c =>
        isAsciiLower c || isAsciiUpper c || isAsciiDigit c ||
          decide (c = '+') || decide (c = '/') || decide (c = '=')) then true
  else false

mutual
/-- `cursor_proto.rs::extract_strings_from_json`: collect every string leaf
of at least 3 bytes that does not look like an ID. -/
def extractStringsFromJson : Json → List Str
  | .str s => if 3 ≤ utf8Len s ∧ looksLikeId s = false then [s] else []
  | .arr items => extractStringsFromJsonList items
  | .obj fields => extractStringsFromJsonFields fields
  | _ => []

/-- Walk of an array. -/
def extractStringsFromJsonList : List Json → List Str
  | [] => []
  | v :: rest => extractStringsFromJson v ++ extractStringsFromJsonList rest

/-- Walk of an object's values. -/
def extractStringsFromJsonFields : List (Str × Json) → List Str
  | [] => []
  | f :: rest => extractStringsFromJson f.2 ++ extractStringsFromJsonFields rest
end

/-- Loop of `cursor_proto.rs::looks_like_protobuf`: every tag parseable,
wire type in `{0,1,2,5}`, field number in `[1, 2^29 - 1]`, offsets in
bounds, at most 100 top-level fields, and the entire buffer consumed. -/
def looksLikeProtobufGo : Nat → List Nat → Nat → Bool
  | _, [], fc => decide (0 < fc)
  | 0, _ :: _, _ => false
  | fuel + 1, b :: rest, fc =>
    if 100 ≤ fc then false
    else
      match readVarint (b :: rest) with
      | none => false
      | some (tag, k) =>
        let rem2 := (b :: rest).drop k
        let wt := tag % 8
        if ¬(wt = 0 ∨ wt = 1 ∨ wt = 2 ∨ wt = 5) then false
        else if tag / 8 = 0 ∨ 536870911 < tag / 8 then false
        else if wt = 0 then
          match readVarint rem2 with
          | none => false
          | some p => looksLikeProtobufGo fuel (rem2.drop p.2) (fc + 1)
        else if wt = 1 then
          if rem2.length < 8 then false
          else looksLikeProtobufGo fuel (rem2.drop 8) (fc + 1)
        else if wt = 5 then
          if rem2.length < 4 then false
          else looksLikeProtobufGo fuel (rem2.drop 4) (fc + 1)
        else
          match readVarint rem2 with
          | none => false
          | some p =>
            let rem3 := rem2.drop p.2
            if rem3.length < p.1 then false
            else looksLikeProtobufGo fuel (rem3.drop p.1) (fc + 1)

/-- `cursor_proto.rs::looks_like_protobuf`. -/
def looksLikeProtobuf (data : List Nat) : Bool :=
  if data = [] then false else looksLikeProtobufGo (data.length + 1) data 0

/-- Loop of `cursor_proto.rs::extract_strings_recursive`: walk the fields;
for a length-delimited field, recurse when the payload looks like protobuf,
else keep it when it is likely text, at least 3 bytes and not ID-like.  A
malformed tag or truncated field breaks the loop.  One fuel pool bounds the
whole walk: every iteration at every depth consumes distinct input bytes. -/
def extractStringsRecGo : Nat → Nat → List Nat → List Str
  | _, _, [] => []
  | 0, _, _ :: _ => []
  | fuel + 1, depth, b :: rest =>
    match readVarint (b :: rest) with
    | none => []
    | some (tag, k) =>
      let rem2 := (b :: rest).drop k
      let wt := tag % 8
      if ¬(wt = 0 ∨ wt = 1 ∨ wt = 2 ∨ wt = 5) then []
      else if tag / 8 = 0 ∨ 536870911 < tag / 8 then []
      else if wt = 0 then
        match readVarint rem2 with
        | none => []
        | some p => extractStringsRecGo fuel depth (rem2.drop p.2)
      else if wt = 1 then
        if rem2.length < 8 then []
        else extractStringsRecGo fuel depth (rem2.drop 8)
      else if wt = 5 then
        if rem2.length < 4 then []
        else extractStringsRecGo fuel depth (rem2.drop 4)
      else
        match readVarint rem2 with
        | none => []
        | some p =>
          let rem3 := rem2.drop p.2
          if rem3.length < p.1 then []
          else
            let fieldData := rem3.take p.1
            let extracted :=
              if looksLikeProtobuf fieldData then
                if 20 < depth + 1 then [] else extractStringsRecGo fuel (depth + 1) fieldData
              else if isLikelyText fieldData then
                match utf8Decode? fieldData with
                | some text =>
                  if 3 ≤ utf8Len text ∧ looksLikeId text = false then [text] else []
                | none => []
              else []
            extracted ++ extractStringsRecGo fuel depth (rem3.drop p.1)

/-- `cursor_proto.rs::extract_strings_recursive` (entry check and loop). -/
def extractStringsRecTop (depth : Nat) (data : List Nat) : List Str :=
  if 20 < depth then [] else extractStringsRecGo (data.length + 1) depth data

/-- The gzip magic check of `extract_all_strings`. -/
def gzipMagic (data : List Nat) : Prop :=
  2 ≤ data.length ∧ data.headD 0 = 0x1f ∧ (data.drop 1).headD 0 = 0x8b

instance (data : List Nat) : Decidable (gzipMagic data) := by
  unfold gzipMagic
  infer_instance

/-- The big-endian `u32` read of bytes 1–4 of a buffer. -/
def be4At (data : List Nat) : Nat :=
  match data.drop 1 with
  | a :: b :: c :: d :: _ => ((a * 256 + b) * 256 + c) * 256 + d
  | _ => 0

/-- Loop of `cursor_proto.rs::parse_connect_frames`: frames are
`(1-byte type ≤ 3, 4-byte big-endian length, payload)`; payloads of frame
types 1 and 3 are gzip-decompressed (falling back to the raw payload).
`gunzip` stands for flate2's `decompress_gzip`. -/
def parseConnectFramesGo (gunzip : List Nat → Option (List Nat)) :
    Nat → List Nat → List (List Nat)
  | 0, _ => []
  | fuel + 1, rem =>
    if rem.length < 5 then []
    else
      match rem with
      | t :: l1 :: l2 :: l3 :: l4 :: rest =>
        if 3 < t then []
        else
          let msgLen := ((l1 * 256 + l2) * 256 + l3) * 256 + l4
          if rest.length < msgLen then []
          else
            let frameData := rest.take msgLen
            (if t = 1 ∨ t = 3 then (gunzip frameData).getD frameData else frameData) ::
              parseConnectFramesGo gunzip fuel (rest.drop msgLen)
      | _ => []

/-- `cursor_proto.rs::parse_connect_frames`. -/
def parseConnectFrames (gunzip : List Nat → Option (List Nat)) (data : List Nat) :
    List (List Nat) :=
  parseConnectFramesGo gunzip (data.length + 1) data

/-- The per-buffer extraction body shared by the framing loop of
`extract_all_strings` (lines 331–341) and its whole-buffer fallback (lines
347–357): if the bytes are UTF-8 and parse as JSON, collect the JSON string
leaves; otherwise walk them as protobuf at depth 0. -/
def extractFrameStrings (frame : List Nat) : List Str :=
  match utf8Decode? frame with
  | some text =>
    match parseJson text with
    | some js => extractStringsFromJson js
    | none => extractStringsRecTop 0 frame
  | none => extractStringsRecTop 0 frame

/-- `cursor_proto.rs::extract_all_strings`: optional gzip of the whole
buffer, then the Connect-framing attempt (first byte ≤ 3, positive
big-endian length, `5 + length ≤ buffer`, and a nonempty frame list), else
the whole-buffer fallback.  The source's nested `if`s are flattened into one
conjunction; both forms take the framed path under exactly the same
conditions. -/
def extractAllStrings (gunzip : List Nat → Option (List Nat)) (data : List Nat) :
    List Str :=
  if data = [] then []
  else
    let dtp := if gzipMagic data then (gunzip data).getD data else data
    if 5 ≤ dtp.length ∧ dtp.headD 0 ≤ 3 ∧ 0 < be4At dtp ∧ be4At dtp + 5 ≤ dtp.length ∧
        parseConnectFrames gunzip dtp ≠ [] then
      (parseConnectFrames gunzip dtp).flatMap extractFrameStrings
    else extractFrameStrings dtp

/-! ### Cursor hook handlers (`cursor_hooks.rs`) -/

/-- `cursor_hooks.rs::BeforeReadFileInput` (the unused `attachments` field
is omitted; the handler never reads it). -/
structure BeforeReadFileInputM where
  conversation_id : Str
  generation_id : Str
  model : Str
  hook_event_name : Str
  cursor_version : Str
  workspace_roots : List Str
  user_email : Option Str
  file_path : Str
  content : Option Str

/-- `cursor_hooks.rs::BeforeTabFileReadInput`. -/
structure BeforeTabFileReadInputM where
  conversation_id : Str
  generation_id : Str
  model : Str
  hook_event_name : Str
  cursor_version : Str
  workspace_roots : List Str
  user_email : Option Str
  file_path : Str
  content : Option Str

/-- `cursor_hooks.rs::BeforeReadFileResponse`. -/
structure BeforeReadFileResponseM where
  permission : Str
  user_message : Option Str
  agent_message : Option Str

/-- `cursor_hooks.rs::BeforeTabFileReadResponse`. -/
structure BeforeTabFileReadResponseM where
  permission : Str

/-- `cursor_hooks.rs::format_detection_message`. -/
def formatDetectionMessage (dets : List DlpDetectionM) : Str :=
  "Blocked: Sensitive data detected:\n".toList ++
    (dets.map (fun d =>
      "- ".toList ++ d.pattern_name ++ " (".toList ++ d.pattern_type ++ ")\n".toList)).flatten

/-- The detection branch shared by the content cases of
`before_read_file_handler`. -/
def beforeReadFileRespond (checkDlp : Str → List DlpDetectionM) (path c : Str) :
    Nat × BeforeReadFileResponseM :=
  let dets := checkDlp c
  if dets.isEmpty then (200, ⟨"allow".toList, none, none⟩)
  else
    (200, ⟨"deny".toList, some (formatDetectionMessage dets),
      some ("Access to file ".toList ++ path ++
        " was blocked due to sensitive data detection.".toList)⟩)

/-- `cursor_hooks.rs::before_read_file_handler`, as the pure function of its
input and its two effectful collaborators: `checkDlp` stands for
`check_dlp_patterns` (declared in `dlp.rs` but not present under `src/`) and
`readFileToString` for `std::fs::read_to_string`.  Database logging does not
affect the response and is not modelled.  Every branch answers HTTP 200. -/
def beforeReadFileHandler (checkDlp : Str → List DlpDetectionM)
    (readFileToString : Str → Option Str) (input : BeforeReadFileInputM) :
    Nat × BeforeReadFileResponseM :=
  match input.content with
  | some c => beforeReadFileRespond checkDlp input.file_path c
  | none =>
    match readFileToString input.file_path with
    | some c => beforeReadFileRespond checkDlp input.file_path c
    | none => (200, ⟨"allow".toList, none, none⟩)

/-- `cursor_hooks.rs::before_tab_file_read_handler` (same conventions as
`beforeReadFileHandler`). -/
def beforeTabFileReadHandler (checkDlp : Str → List DlpDetectionM)
    (readFileToString : Str → Option Str) (input : BeforeTabFileReadInputM) :
    Nat × BeforeTabFileReadResponseM :=
  match input.content with
  | some c =>
    (200, ⟨if (checkDlp c).isEmpty then "allow".toList else "deny".toList⟩)
  | none =>
    match readFileToString input.file_path with
    | some c =>
      (200, ⟨if (checkDlp c).isEmpty then "allow".toList else "deny".toList⟩)
    | none => (200, ⟨"allow".toList⟩)

/-! ### Properties of the placeholder generator -/

/-- The per-character contract of `create_placeholder`: the substitute is in
the same ASCII class, and characters outside the three alphanumeric classes
are kept unchanged. -/
def placeholderRel (a b : Char) : Prop :=
  asciiClassOf b = asciiClassOf a ∧ (asciiClassOf a = AsciiClass.other → b = a)

theorem asciiClassOf_lowerChar (m : Nat) (h : m < 26) :
    asciiClassOf (Char.ofNat (97 + m)) = AsciiClass.lower := by
  interval_cases m <;> decide

theorem asciiClassOf_upperChar (m : Nat) (h : m < 26) :
    asciiClassOf (Char.ofNat (65 + m)) = AsciiClass.upper := by
  interval_cases m <;> decide

theorem asciiClassOf_digitChar (m : Nat) (h : m < 10) :
    asciiClassOf (Char.ofNat (48 + m)) = AsciiClass.digit := by
  interval_cases m <;> decide

theorem asciiClassOf_of_lower {c : Char} (hl : isAsciiLower c = true) :
    asciiClassOf c = AsciiClass.lower := by
  unfold asciiClassOf
  rw [if_pos hl]

theorem asciiClassOf_of_upper {c : Char} (hl : isAsciiLower c = false)
    (hu : isAsciiUpper c = true) : asciiClassOf c = AsciiClass.upper := by
  unfold asciiClassOf
  rw [if_neg (by simp [hl]), if_pos hu]

theorem asciiClassOf_of_digit {c : Char} (hl : isAsciiLower c = false)
    (hu : isAsciiUpper c = false) (hd : isAsciiDigit c = true) :
    asciiClassOf c = AsciiClass.digit := by
  unfold asciiClassOf
  rw [if_neg (by simp [hl]), if_neg (by simp [hu]), if_pos hd]

theorem asciiClassOf_of_other {c : Char} (hl : isAsciiLower c = false)
    (hu : isAsciiUpper c = false) (hd : isAsciiDigit c = false) :
    asciiClassOf c = AsciiClass.other := by
  unfold asciiClassOf
  rw [if_neg (by simp [hl]), if_neg (by simp [hu]), if_neg (by simp [hd])]

theorem placeChar_rel (seed : Nat) (c : Char) : placeholderRel c (placeChar seed c).1 := by
  unfold placeChar
  by_cases hl : isAsciiLower c = true
  · rw [if_pos hl]
    refine ⟨?_, ?_⟩
    · rw [asciiClassOf_of_lower hl]
      exact asciiClassOf_lowerChar _ (Nat.mod_lt _ (by norm_num))
    · intro h
      rw [asciiClassOf_of_lower hl] at h
      exact absurd h (by decide)
  · rw [if_neg hl]
    by_cases hu : isAsciiUpper c = true
    · rw [if_pos hu]
      have hl' : isAsciiLower c = false := by simpa using hl
      refine ⟨?_, ?_⟩
      · rw [asciiClassOf_of_upper hl' hu]
        exact asciiClassOf_upperChar _ (Nat.mod_lt _ (by norm_num))
      · intro h
        rw [asciiClassOf_of_upper hl' hu] at h
        exact absurd h (by decide)
    · rw [if_neg hu]
      by_cases hd : isAsciiDigit c = true
      · rw [if_pos hd]
        have hl' : isAsciiLower c = false := by simpa using hl
        have hu' : isAsciiUpper c = false := by simpa using hu
        refine ⟨?_, ?_⟩
        · rw [asciiClassOf_of_digit hl' hu' hd]
          exact asciiClassOf_digitChar _ (Nat.mod_lt _ (by norm_num))
        · intro h
          rw [asciiClassOf_of_digit hl' hu' hd] at h
          exact absurd h (by decide)
      · rw [if_neg hd]
        exact ⟨rfl, fun _ => rfl⟩

theorem placeChars_forall₂ (seed : Nat) (s : Str) :
    List.Forall₂ placeholderRel s (placeChars seed s) := by
  induction s generalizing seed with
  | nil => exact List.Forall₂.nil
  | cons c rest ih => exact List.Forall₂.cons (placeChar_rel seed c) (ih _)

theorem length_utf8EncodeChar (c : Char) : (utf8EncodeChar c).length = utf8SizeC c := by
  unfold utf8EncodeChar utf8SizeC
  by_cases h1 : c.toNat < 0x80
  · simp [h1]
  · by_cases h2 : c.toNat < 0x800
    · simp [h1, h2]
    · by_cases h3 : c.toNat < 0x10000
      · simp [h1, h2, h3]
      · simp [h1, h2, h3]

theorem isAsciiLower_toNat_lt {c : Char} (h : isAsciiLower c = true) : c.toNat < 0x80 := by
  unfold isAsciiLower at h
  simp at h
  omega

theorem isAsciiUpper_toNat_lt {c : Char} (h : isAsciiUpper c = true) : c.toNat < 0x80 := by
  unfold isAsciiUpper at h
  simp at h
  omega

theorem isAsciiDigit_toNat_lt {c : Char} (h : isAsciiDigit c = true) : c.toNat < 0x80 := by
  unfold isAsciiDigit at h
  simp at h
  omega

theorem asciiClass_size_one {c : Char} (h : asciiClassOf c ≠ AsciiClass.other) :
    utf8SizeC c = 1 := by
  unfold asciiClassOf at h
  unfold utf8SizeC
  by_cases hl : isAsciiLower c = true
  · rw [if_pos (isAsciiLower_toNat_lt hl)]
  · by_cases hu : isAsciiUpper c = true
    · rw [if_pos (isAsciiUpper_toNat_lt hu)]
    · by_cases hd : isAsciiDigit c = true
      · rw [if_pos (isAsciiDigit_toNat_lt hd)]
      · simp [hl, hu, hd] at h

theorem placeholderRel_size {a b : Char} (h : placeholderRel a b) :
    utf8SizeC b = utf8SizeC a := by
  rcases h with ⟨hclass, hother⟩
  by_cases ho : asciiClassOf a = AsciiClass.other
  · rw [hother ho]
  · rw [asciiClass_size_one ho, asciiClass_size_one (by rw [hclass]; exact ho)]

theorem utf8Len_eq_of_forall₂ {s t : Str}
    (h : List.Forall₂ placeholderRel s t) : utf8Len t = utf8Len s := by
  induction h with
  | nil => rfl
  | cons hab _ ih =>
    unfold utf8Len utf8Encode at *
    simp only [List.map_cons, List.flatten_cons, List.length_append, ih,
      length_utf8EncodeChar, placeholderRel_size hab]

theorem flags_of_other {c : Char} (h : asciiClassOf c = AsciiClass.other) :
    isAsciiLower c = false ∧ isAsciiUpper c = false ∧ isAsciiDigit c = false := by
  by_cases hl : isAsciiLower c = true
  · rw [asciiClassOf_of_lower hl] at h
    exact absurd h (by decide)
  · have hl' : isAsciiLower c = false := by simpa using hl
    by_cases hu : isAsciiUpper c = true
    · rw [asciiClassOf_of_upper hl' hu] at h
      exact absurd h (by decide)
    · have hu' : isAsciiUpper c = false := by simpa using hu
      by_cases hd : isAsciiDigit c = true
      · rw [asciiClassOf_of_digit hl' hu' hd] at h
        exact absurd h (by decide)
      · exact ⟨hl', hu', by simpa using hd⟩

/-- **C2**: for every counter value and every original string,
`create_placeholder` returns a string of exactly the same byte length, and at
every character position the placeholder character is in the same ASCII class
as the original character (lowercase to lowercase, uppercase to uppercase,
digit to digit), while any other character is kept unchanged. -/
theorem c2_placeholder_length_and_class (id : Nat) (orig : Str) :
    (createPlaceholder id orig).length = orig.length ∧
    utf8Len (createPlaceholder id orig) = utf8Len orig ∧
    List.Forall₂
      (fun a b =>
        asciiClassOf b = asciiClassOf a ∧ (asciiClassOf a = AsciiClass.other → b = a))
      orig (createPlaceholder id orig) := by
  have h := placeChars_forall₂ (sipHashU32 id) orig
  exact ⟨h.length_eq.symm, utf8Len_eq_of_forall₂ h, h⟩

/-- **C3** counterexample: the placeholder generated for the original `"-"`
at counter 1 is `"-"` itself — `create_placeholder` contains no regeneration
step, so the generated placeholder does not always differ from the original. -/
theorem c3_counterexample : createPlaceholder 1 "-".toList = "-".toList := by decide

/-- **C3** (amended): `create_placeholder` applies the class-preserving
substitution exactly once, with no regeneration; in particular, for every
counter and every original made only of characters outside the three ASCII
alphanumeric classes, the placeholder equals the original. -/
theorem c3_placeholder_no_regeneration (id : Nat) (orig : Str)
    (h : ∀ c ∈ orig, asciiClassOf c = AsciiClass.other) :
    createPlaceholder id orig = orig := by
  unfold createPlaceholder
  generalize sipHashU32 id = seed
  induction orig generalizing seed with
  | nil => rfl
  | cons c rest ih =>
    have hc := flags_of_other (h c (List.mem_cons_self c rest))
    have hstep : placeChar seed c = (c, seed) := by
      unfold placeChar
      rw [if_neg (by simp [hc.1]), if_neg (by simp [hc.2.1]), if_neg (by simp [hc.2.2])]
    unfold placeChars
    rw [hstep]
    exact congrArg (c :: ·) (ih (fun x hx => h x (List.mem_cons_of_mem c hx)) seed)

/-- Witness for the amended **C3** theorem at the concrete original `"-_!"`. -/
theorem c3_placeholder_no_regeneration_witness :
    (∀ c ∈ "-_!".toList, asciiClassOf c = AsciiClass.other) ∧
    createPlaceholder 7 "-_!".toList = "-_!".toList :=
  ⟨by decide, c3_placeholder_no_regeneration 7 "-_!".toList (by decide)⟩

/-! ### Byte-level engine: length invariance and panic analysis -/

theorem utf8DecodeGo_encode :
    ∀ (fuel : Nat) (bytes : List Nat) (s : Str),
      utf8DecodeGo fuel bytes = some s → utf8Encode s = bytes := by
  intro fuel
  induction fuel with
  | zero =>
    intro bytes s h
    cases bytes with
    | nil => cases h; rfl
    | cons b rest => exact absurd h (by simp [utf8DecodeGo])
  | succ fuel ih =>
    intro bytes s h
    cases bytes with
    | nil => cases h; rfl
    | cons b rest =>
      unfold utf8DecodeGo at h
      cases hd : utf8DecodeOne (b :: rest) with
      | none => rw [hd] at h; cases h
      | some cw =>
        obtain ⟨c, w⟩ := cw
        rw [hd] at h
        simp only at h
        cases hr : utf8DecodeGo fuel ((b :: rest).drop w) with
        | none => rw [hr] at h; cases h
        | some s2 =>
          rw [hr] at h
          cases h
          have henc : utf8EncodeChar c = (b :: rest).take w := by
            unfold utf8DecodeOne at hd
            cases hraw : utf8RawRead (b :: rest) with
            | none => rw [hraw] at hd; cases hd
            | some pw =>
              obtain ⟨cp, w0⟩ := pw
              rw [hraw] at hd
              simp only at hd
              by_cases hok : utf8EncodeChar (Char.ofNat cp) = (b :: rest).take w0
              · rw [if_pos hok] at hd
                cases hd
                exact hok
              · rw [if_neg hok] at hd
                cases hd
          have hcons : utf8Encode (c :: s2) = utf8EncodeChar c ++ utf8Encode s2 := by
            unfold utf8Encode
            simp
          rw [hcons, henc, ih _ _ hr, List.take_append_drop]

theorem utf8Decode?_encode {bytes : List Nat} {s : Str}
    (h : utf8Decode? bytes = some s) : utf8Encode s = bytes :=
  utf8DecodeGo_encode _ _ _ h

theorem utf8Decode?_length {bytes : List Nat} {s : Str}
    (h : utf8Decode? bytes = some s) : utf8Len s = bytes.length := by
  unfold utf8Len
  rw [utf8Decode?_encode h]

theorem createPlaceholder_utf8Len (id : Nat) (s : Str) :
    utf8Len (createPlaceholder id s) = utf8Len s :=
  utf8Len_eq_of_forall₂ (placeChars_forall₂ (sipHashU32 id) s)

theorem isPreL_length {α : Type} [DecidableEq α] :
    ∀ {p l : List α}, isPreL p l = true → p.length ≤ l.length := by
  intro p
  induction p with
  | nil => intro l _; simp
  | cons a as ih =>
    intro l h
    cases l with
    | nil => exact absurd h (by simp [isPreL])
    | cons b bs =>
      unfold isPreL at h
      by_cases hab : a = b
      · rw [if_pos hab] at h
        simpa using ih h
      · rw [if_neg hab] at h
        cases h

theorem spliceBytes_length {r : List Nat} {s L : Nat} {repl : List Nat}
    (hr : repl.length = L) (hL : s + L ≤ r.length ∨ L = 0) :
    (spliceBytes r s L repl).length = r.length := by
  unfold spliceBytes
  simp only [List.length_append, List.length_take, List.length_drop, hr]
  omega

theorem lookupByValue_mem {reps : List (Str × Str)} {v pl : Str}
    (h : lookupByValue reps v = some pl) : (pl, v) ∈ reps := by
  unfold lookupByValue at h
  cases hf : reps.find? (fun e => decide (e.2 = v)) with
  | none => rw [hf] at h; cases h
  | some e =>
    rw [hf] at h
    cases h
    have hm := List.mem_of_find?_eq_some hf
    have hp := List.find?_some hf
    simp at hp
    have : e = (e.1, v) := by
      cases e
      simp_all
    rw [← this]
    exact hm

theorem redactBytesMatch_ok (data : List Nat) (nm ty pat : Str) (st : ByteRedSt)
    (sp : Nat × Nat) (hlen : st.result.length = data.length)
    (hreps : ∀ e ∈ st.reps, utf8Len e.1 = utf8Len e.2) :
    redactBytesMatch data nm ty pat st sp ≠ .error .copyMismatch ∧
      ∀ st2, redactBytesMatch data nm ty pat st sp = .ok st2 →
        st2.result.length = data.length ∧ ∀ e ∈ st2.reps, utf8Len e.1 = utf8Len e.2 := by
  unfold redactBytesMatch
  by_cases hoob : data.length < sp.2
  · rw [if_pos hoob]
    exact ⟨by simp, fun st2 h => by cases h⟩
  · rw [if_neg hoob]
    have he : sp.2 ≤ data.length := Nat.le_of_not_lt hoob
    cases hdec : utf8Decode? ((data.drop sp.1).take (sp.2 - sp.1)) with
    | none => exact ⟨by simp, fun st2 h => by cases h; exact ⟨hlen, hreps⟩⟩
    | some orig =>
      dsimp only
      by_cases hop : orig = pat
      · rw [if_pos hop]
        have hslice : utf8Len orig = sp.2 - sp.1 := by
          rw [utf8Decode?_length hdec]
          simp only [List.length_take, List.length_drop]
          omega
        cases hlk : lookupByValue st.reps pat with
        | some pl =>
          dsimp only
          have hplen : (utf8Encode pl).length = sp.2 - sp.1 := by
            have := hreps _ (lookupByValue_mem hlk)
            simp only [utf8Len] at this hslice ⊢
            rw [this, ← hop, hslice]
          rw [if_pos hplen]
          refine ⟨by simp, fun st2 h => ?_⟩
          cases h
          refine ⟨?_, hreps⟩
          simp only
          rw [← hlen]
          exact spliceBytes_length hplen (by omega)
        | none =>
          dsimp only
          have hplen : (utf8Encode (createPlaceholder st.counter pat)).length = sp.2 - sp.1 := by
            have := createPlaceholder_utf8Len st.counter pat
            simp only [utf8Len] at this hslice ⊢
            rw [this, ← hop, hslice]
          rw [if_pos hplen]
          refine ⟨by simp, fun st2 h => ?_⟩
          cases h
          constructor
          · simp only
            rw [← hlen]
            exact spliceBytes_length hplen (by omega)
          · intro e hme
            simp only [List.mem_append, List.mem_singleton] at hme
            cases hme with
            | inl hin => exact hreps e hin
            | inr hnew =>
              rw [hnew]
              exact createPlaceholder_utf8Len st.counter pat
      · rw [if_neg hop]
        exact ⟨by simp, fun st2 h => by cases h; exact ⟨hlen, hreps⟩⟩

theorem redactBytesSpans_ok (data : List Nat) (nm ty pat : Str) :
    ∀ (sps : List (Nat × Nat)) (st : ByteRedSt),
      st.result.length = data.length →
      (∀ e ∈ st.reps, utf8Len e.1 = utf8Len e.2) →
      redactBytesSpans data nm ty pat sps st ≠ .error .copyMismatch ∧
        ∀ st2, redactBytesSpans data nm ty pat sps st = .ok st2 →
          st2.result.length = data.length ∧ ∀ e ∈ st2.reps, utf8Len e.1 = utf8Len e.2 := by
  intro sps
  induction sps with
  | nil =>
    intro st hlen hreps
    exact ⟨by simp [redactBytesSpans], fun st2 h => by cases h; exact ⟨hlen, hreps⟩⟩
  | cons sp rest ih =>
    intro st hlen hreps
    have hm := redactBytesMatch_ok data nm ty pat st sp hlen hreps
    unfold redactBytesSpans
    cases hone : redactBytesMatch data nm ty pat st sp with
    | error e =>
      refine ⟨?_, fun st2 h => by simp [hone] at h⟩
      simp only [hone]
      intro hcontra
      apply hm.1
      rw [hone]
      exact congrArg Except.error (by injection hcontra)
    | ok st1 =>
      have h1 := hm.2 st1 hone
      simp only [hone]
      exact ih st1 h1.1 h1.2

theorem redactBytesRegexes_ok (data : List Nat) (text : Str) (nm ty : Str) :
    ∀ (regs : List Str) (st : ByteRedSt),
      st.result.length = data.length →
      (∀ e ∈ st.reps, utf8Len e.1 = utf8Len e.2) →
      redactBytesRegexes data text nm ty regs st ≠ .error .copyMismatch ∧
        ∀ st2, redactBytesRegexes data text nm ty regs st = .ok st2 →
          st2.result.length = data.length ∧ ∀ e ∈ st2.reps, utf8Len e.1 = utf8Len e.2 := by
  intro regs
  induction regs with
  | nil =>
    intro st hlen hreps
    exact ⟨by simp [redactBytesRegexes], fun st2 h => by cases h; exact ⟨hlen, hreps⟩⟩
  | cons pat rest ih =>
    intro st hlen hreps
    have hm := redactBytesSpans_ok data nm ty pat (findIterB pat text) st hlen hreps
    unfold redactBytesRegexes
    cases hone : redactBytesSpans data nm ty pat (findIterB pat text) st with
    | error e =>
      refine ⟨?_, fun st2 h => by simp [hone] at h⟩
      simp only [hone]
      intro hcontra
      apply hm.1
      rw [hone]
      exact congrArg Except.error (by injection hcontra)
    | ok st1 =>
      have h1 := hm.2 st1 hone
      simp only [hone]
      exact ih st1 h1.1 h1.2

theorem redactBytesGroups_ok (data : List Nat) (text : Str) :
    ∀ (gs : List PatternGroup) (st : ByteRedSt),
      st.result.length = data.length →
      (∀ e ∈ st.reps, utf8Len e.1 = utf8Len e.2) →
      redactBytesGroups data text gs st ≠ .error .copyMismatch ∧
        ∀ st2, redactBytesGroups data text gs st = .ok st2 →
          st2.result.length = data.length ∧ ∀ e ∈ st2.reps, utf8Len e.1 = utf8Len e.2 := by
  intro gs
  induction gs with
  | nil =>
    intro st hlen hreps
    exact ⟨by simp [redactBytesGroups], fun st2 h => by cases h; exact ⟨hlen, hreps⟩⟩
  | cons g rest ih =>
    intro st hlen hreps
    have hm := redactBytesRegexes_ok data text g.name g.ptype g.regexes st hlen hreps
    unfold redactBytesGroups
    cases hone : redactBytesRegexes data text g.name g.ptype g.regexes st with
    | error e =>
      refine ⟨?_, fun st2 h => by simp [hone] at h⟩
      simp only [hone]
      intro hcontra
      apply hm.1
      rw [hone]
      exact congrArg Except.error (by injection hcontra)
    | ok st1 =>
      have h1 := hm.2 st1 hone
      simp only [hone]
      exact ih st1 h1.1 h1.2

theorem replaceAllGo_length {α : Type} [DecidableEq α] {p o : List α}
    (h : o.length = p.length) :
    ∀ (fuel : Nat) (rem : List α), (replaceAllGo p o fuel rem).length = rem.length := by
  intro fuel
  induction fuel with
  | zero =>
    intro rem
    cases rem <;> rfl
  | succ fuel ih =>
    intro rem
    cases rem with
    | nil => rfl
    | cons a rest =>
      unfold replaceAllGo
      by_cases hc : p ≠ [] ∧ isPreL p (a :: rest) = true
      · rw [if_pos hc]
        have hple := isPreL_length hc.2
        simp only [List.length_append, ih, List.length_drop, List.length_cons, h]
        simp only [List.length_cons] at hple
        omega
      · rw [if_neg hc]
        simp [ih]

theorem unredactBytes_foldl (reps : List (Str × Str)) (data : List Nat) :
    applyDlpUnredactionToBytes reps data =
      reps.foldl (fun result e => replaceAllL (utf8Encode e.1) (utf8Encode e.2) result) data := by
  unfold applyDlpUnredactionToBytes
  cases reps with
  | nil => simp
  | cons e rest => rw [if_neg (by simp)]

theorem foldl_replace_length :
    ∀ (rs : List (Str × Str)) (d : List Nat),
      (∀ e ∈ rs, utf8Len e.1 = utf8Len e.2) →
      (rs.foldl (fun result e => replaceAllL (utf8Encode e.1) (utf8Encode e.2) result) d).length
        = d.length := by
  intro rs
  induction rs with
  | nil => intro d _; rfl
  | cons e rest ih =>
    intro d hh
    simp only [List.foldl_cons]
    rw [ih _ (fun x hx => hh x (List.mem_cons_of_mem e hx))]
    show (replaceAllGo _ _ _ _).length = _
    exact replaceAllGo_length (by
      have := hh e (List.mem_cons_self e rest)
      simp only [utf8Len] at this
      omega) _ _

/-- **C10** (amended): `apply_dlp_redaction_to_bytes` never reaches the
`copy_from_slice` length panic and, whenever it returns, the buffer has
exactly the input's length (the placeholder spliced at each match has the
byte length of the matched span); `apply_dlp_unredaction_to_bytes` preserves
the length whenever every map entry pairs byte sequences of equal length and
a nonempty placeholder.  (The slice `&data[start..end]` itself can still go
out of bounds — see the counterexample — so the per-buffer totality part of
the original claim fails.) -/
theorem c10_byte_length_invariance :
    (∀ (patterns : List PatternGroup) (data : List Nat) out,
        applyDlpRedactionToBytes patterns data = .ok out → out.1.length = data.length) ∧
    (∀ (patterns : List PatternGroup) (data : List Nat),
        applyDlpRedactionToBytes patterns data ≠ .error .copyMismatch) ∧
    (∀ (reps : List (Str × Str)) (data : List Nat),
        (∀ e ∈ reps, utf8Len e.1 = utf8Len e.2 ∧ e.1 ≠ []) →
        (applyDlpUnredactionToBytes reps data).length = data.length) := by
  refine ⟨?_, ?_, ?_⟩
  · intro patterns data out h
    unfold applyDlpRedactionToBytes at h
    by_cases hp : patterns.isEmpty
    · rw [if_pos hp] at h
      cases h
      rfl
    · rw [if_neg hp] at h
      have hg := redactBytesGroups_ok data (utf8Lossy data) patterns ⟨data, [], [], 1⟩ rfl
        (by intro e he; cases he)
      cases hr : redactBytesGroups data (utf8Lossy data) patterns ⟨data, [], [], 1⟩ with
      | error e => rw [hr] at h; cases h
      | ok st =>
        rw [hr] at h
        cases h
        exact (hg.2 st hr).1
  · intro patterns data
    unfold applyDlpRedactionToBytes
    by_cases hp : patterns.isEmpty
    · rw [if_pos hp]
      simp
    · rw [if_neg hp]
      have hg := redactBytesGroups_ok data (utf8Lossy data) patterns ⟨data, [], [], 1⟩ rfl
        (by intro e he; cases he)
      cases hr : redactBytesGroups data (utf8Lossy data) patterns ⟨data, [], [], 1⟩ with
      | error e =>
        intro hc
        apply hg.1
        rw [hr]
        exact congrArg Except.error (by injection hc)
      | ok st => simp
  · intro reps data hent
    rw [unredactBytes_foldl]
    exact foldl_replace_length reps data (fun e he => (hent e he).1)

/-- Witness for **C10** at concrete inputs: redacting `"xx ab yy"` with the
literal pattern `"ab"` gives a same-length buffer, and unredacting with the
produced single-entry map preserves length. -/
theorem c10_byte_length_invariance_witness :
    (applyDlpRedactionToBytes [⟨"k".toList, "regex".toList, ["ab".toList]⟩]
        (utf8Encode "xx ab yy".toList) =
      Except.ok (utf8Encode "xx tw yy".toList, [("tw".toList, "ab".toList)],
        [⟨"k".toList, "regex".toList, "ab".toList, "tw".toList, none⟩]) ∧
      (utf8Encode "xx tw yy".toList).length = (utf8Encode "xx ab yy".toList).length) ∧
    ((∀ e ∈ [("tw".toList, "ab".toList)], utf8Len e.1 = utf8Len e.2 ∧ e.1 ≠ []) ∧
      (applyDlpUnredactionToBytes [("tw".toList, "ab".toList)]
          (utf8Encode "xx tw yy".toList)).length =
        (utf8Encode "xx tw yy".toList).length) :=
  ⟨⟨by rfl, by
      have h := c10_byte_length_invariance.1
        [⟨"k".toList, "regex".toList, ["ab".toList]⟩] (utf8Encode "xx ab yy".toList)
        (utf8Encode "xx tw yy".toList, [("tw".toList, "ab".toList)],
          [⟨"k".toList, "regex".toList, "ab".toList, "tw".toList, none⟩]) (by rfl)
      exact h⟩,
    ⟨by decide,
      c10_byte_length_invariance.2.2 [("tw".toList, "ab".toList)]
        (utf8Encode "xx tw yy".toList) (by decide)⟩⟩

/-- **C10** counterexample: on the buffer `80 80 80 80 7A 7A` (four invalid
UTF-8 bytes followed by `"zz"`), the lossy text is four U+FFFD scalars
followed by `"zz"`, so the literal pattern `"zz"` matches at text byte span
`[12, 14)` — past the 6-byte buffer.  The slice `&data[start..end]` panics,
so the function does not return a buffer at all. -/
theorem c10_counterexample :
    applyDlpRedactionToBytes [⟨"k".toList, "regex".toList, ["zz".toList]⟩]
      ([0x80, 0x80, 0x80, 0x80] ++ utf8Encode "zz".toList) =
      Except.error BytePanic.sliceOOB := by
  rfl

/-! ### Round-trip analysis of the byte-level engine -/

theorem utf8SizeC_pos (c : Char) : 0 < utf8SizeC c := by
  unfold utf8SizeC
  split
  · norm_num
  · split
    · norm_num
    · split <;> norm_num

theorem utf8Len_pos {pat : Str} (h : pat ≠ []) : 0 < utf8Len pat := by
  cases pat with
  | nil => exact absurd rfl h
  | cons c t =>
    show 0 < (utf8Encode (c :: t)).length
    unfold utf8Encode
    simp only [List.map_cons, List.flatten_cons, List.length_append, length_utf8EncodeChar]
    have := utf8SizeC_pos c
    omega

theorem isPreL_append_self {α : Type} [DecidableEq α] :
    ∀ (p x : List α), isPreL p (p ++ x) = true := by
  intro p
  induction p with
  | nil => intro x; rfl
  | cons a as ih =>
    intro x
    show isPreL (a :: as) (a :: (as ++ x)) = true
    unfold isPreL
    rw [if_pos rfl]
    exact ih x

theorem occursInL_cons_false {α : Type} [DecidableEq α] {p : List α} {a : α} {rest : List α}
    (h : occursInL p (a :: rest) = false) :
    isPreL p (a :: rest) = false ∧ occursInL p rest = false := by
  unfold occursInL at h
  exact ⟨(Bool.or_eq_false_iff.mp h).1, (Bool.or_eq_false_iff.mp h).2⟩

theorem replaceAllGo_no_occurs {α : Type} [DecidableEq α] {p o : List α} :
    ∀ (fuel : Nat) (rem : List α), occursInL p rem = false → replaceAllGo p o fuel rem = rem := by
  intro fuel
  induction fuel with
  | zero =>
    intro rem _
    cases rem <;> rfl
  | succ f ih =>
    intro rem h
    cases rem with
    | nil => rfl
    | cons a rest =>
      have hd := occursInL_cons_false h
      unfold replaceAllGo
      rw [if_neg (fun hc => by rw [hd.1] at hc; exact Bool.false_ne_true hc.2)]
      rw [ih rest hd.2]

theorem replaceAllGo_restore {α : Type} [DecidableEq α] {p o B : List α} (hp : p ≠ [])
    (hB : occursInL p B = false) :
    ∀ (A : List α) (fuel : Nat), (A ++ p ++ B).length ≤ fuel →
      (∀ i < A.length, occursAtL p (A ++ p ++ B) i = false) →
      replaceAllGo p o fuel (A ++ p ++ B) = A ++ o ++ B := by
  intro A
  induction A with
  | nil =>
    intro fuel hf _
    simp only [List.nil_append] at hf ⊢
    cases fuel with
    | zero =>
      exfalso
      cases p with
      | nil => exact hp rfl
      | cons x xs => simp at hf
    | succ f =>
      obtain ⟨x, xs, rfl⟩ : ∃ x xs, p = x :: xs := by
        cases p with
        | nil => exact absurd rfl hp
        | cons x xs => exact ⟨x, xs, rfl⟩
      show replaceAllGo (x :: xs) o (f + 1) (x :: (xs ++ B)) = o ++ B
      unfold replaceAllGo
      rw [if_pos ⟨hp, isPreL_append_self (x :: xs) B⟩]
      have hdrop : (x :: (xs ++ B)).drop (x :: xs).length = B := List.drop_left (x :: xs) B
      rw [hdrop, replaceAllGo_no_occurs f B hB]
  | cons a A' ih =>
    intro fuel hf hA
    cases fuel with
    | zero => simp at hf
    | succ f =>
      show replaceAllGo p o (f + 1) (a :: (A' ++ p ++ B)) = a :: (A' ++ o ++ B)
      have hfalse : isPreL p (a :: (A' ++ p ++ B)) = false := by
        have h0 := hA 0 (Nat.succ_pos _)
        simpa [occursAtL] using h0
      unfold replaceAllGo
      rw [if_neg (fun hc => by rw [hfalse] at hc; exact Bool.false_ne_true hc.2)]
      congr 1
      apply ih f (by simp at hf ⊢; omega)
      intro i hi
      have := hA (i + 1) (by simpa using Nat.succ_lt_succ hi)
      simpa [occursAtL] using this

theorem replaceAllL_restore {α : Type} [DecidableEq α] {p o A B : List α} (hp : p ≠ [])
    (hA : ∀ i < A.length, occursAtL p (A ++ p ++ B) i = false)
    (hB : occursInL p B = false) :
    replaceAllL p o (A ++ p ++ B) = A ++ o ++ B :=
  replaceAllGo_restore hp hB A (A ++ p ++ B).length (Nat.le_refl _) hA

/-- **C1** (amended): byte-level redaction followed by unredaction with the
produced replacement map restores the original buffer *provided* the
placeholder's byte sequence occurs in the redacted buffer only at the
replaced span — here for a single enabled literal pattern with a single
match.  Unredaction scans for raw placeholder bytes, so any pre-existing
occurrence of those bytes is also rewritten and the unrestricted round-trip
fails (see the counterexample). -/
theorem c1_roundtrip_amended (nm ty pat : Str) (data : List Nat) (s e : Nat)
    (red : List Nat) (reps : List (Str × Str)) (dets : List DlpDetectionM)
    (hpat : pat ≠ [])
    (hfind : findIterB pat (utf8Lossy data) = [(s, e)])
    (he : e = s + utf8Len pat)
    (hvalid : e ≤ data.length)
    (hslice : utf8Decode? ((data.drop s).take (e - s)) = some pat)
    (hres : applyDlpRedactionToBytes [⟨nm, ty, [pat]⟩] data = .ok (red, reps, dets))
    (hA : ∀ i < s, occursAtL (utf8Encode (createPlaceholder 1 pat)) red i = false)
    (hB : occursInL (utf8Encode (createPlaceholder 1 pat)) (data.drop e) = false) :
    applyDlpUnredactionToBytes reps red = data := by
  have hlenpat : utf8Len pat = e - s := by
    rw [utf8Decode?_length hslice]
    simp only [List.length_take, List.length_drop]
    omega
  have hpb : (utf8Encode (createPlaceholder 1 pat)).length = e - s := by
    have := createPlaceholder_utf8Len 1 pat
    simp only [utf8Len] at this hlenpat
    omega
  have hmatch : redactBytesMatch data nm ty pat ⟨data, [], [], 1⟩ (s, e) =
      .ok ⟨spliceBytes data s (e - s) (utf8Encode (createPlaceholder 1 pat)),
           [(createPlaceholder 1 pat, pat)], [⟨nm, ty, pat, createPlaceholder 1 pat, none⟩], 2⟩ := by
    unfold redactBytesMatch
    rw [if_neg (by simp only; omega)]
    simp only
    rw [hslice]
    simp only
    rw [if_pos trivial]
    have hlk : lookupByValue ([] : List (Str × Str)) pat = none := rfl
    rw [hlk]
    simp only
    rw [if_pos hpb]
    norm_num
  have hcomp : applyDlpRedactionToBytes [⟨nm, ty, [pat]⟩] data =
      .ok (spliceBytes data s (e - s) (utf8Encode (createPlaceholder 1 pat)),
           [(createPlaceholder 1 pat, pat)], [⟨nm, ty, pat, createPlaceholder 1 pat, none⟩]) := by
    unfold applyDlpRedactionToBytes
    rw [if_neg (by simp)]
    unfold redactBytesGroups redactBytesRegexes
    simp only
    rw [hfind]
    unfold redactBytesSpans
    rw [hmatch]
    rfl
  rw [hcomp] at hres
  injection hres with hres1
  injection hres1 with hred hrest
  injection hrest with hreps hdets
  subst hred hreps
  rw [unredactBytes_foldl]
  simp only [List.foldl_cons, List.foldl_nil]
  have hse : s + (e - s) = e := by omega
  have hs_le : s ≤ data.length := by omega
  have hsplit : spliceBytes data s (e - s) (utf8Encode (createPlaceholder 1 pat)) =
      data.take s ++ utf8Encode (createPlaceholder 1 pat) ++ data.drop e := by
    unfold spliceBytes
    rw [hse]
  have hAlen : (data.take s).length = s := by
    simp [hs_le]
  have hrestore := replaceAllL_restore
    (p := utf8Encode (createPlaceholder 1 pat))
    (o := utf8Encode pat)
    (A := data.take s) (B := data.drop e)
    (by
      intro hnil
      have := utf8Len_pos hpat
      rw [← createPlaceholder_utf8Len 1 pat] at this
      simp only [utf8Len, hnil, List.length_nil] at this
      exact Nat.lt_irrefl 0 this)
    (by
      intro i hi
      rw [hAlen] at hi
      rw [← hsplit]
      exact hA i hi)
    hB
  rw [hsplit, hrestore, utf8Decode?_encode hslice]
  rw [show data.take s ++ (data.drop s).take (e - s) ++ data.drop e =
        (data.take s ++ (data.drop s).take (e - s)) ++ data.drop e from by simp]
  rw [← List.take_add, hse, List.take_append_drop]

/-- Witness for the amended **C1** theorem: redacting `"AB1 ab 23"` with the
literal pattern `"ab"` replaces the span `[4, 6)` by the placeholder `"tw"`,
whose bytes occur nowhere else, and unredaction restores the buffer. -/
theorem c1_roundtrip_amended_witness :
    applyDlpRedactionToBytes [⟨"k".toList, "regex".toList, ["ab".toList]⟩]
        (utf8Encode "AB1 ab 23".toList) =
      Except.ok (utf8Encode "AB1 tw 23".toList, [("tw".toList, "ab".toList)],
        [⟨"k".toList, "regex".toList, "ab".toList, "tw".toList, none⟩]) ∧
    applyDlpUnredactionToBytes [("tw".toList, "ab".toList)]
        (utf8Encode "AB1 tw 23".toList) = utf8Encode "AB1 ab 23".toList :=
  ⟨by rfl,
    c1_roundtrip_amended "k".toList "regex".toList "ab".toList
      (utf8Encode "AB1 ab 23".toList) 4 6
      (utf8Encode "AB1 tw 23".toList) [("tw".toList, "ab".toList)]
      [⟨"k".toList, "regex".toList, "ab".toList, "tw".toList, none⟩]
      (by decide) (by rfl) (by decide) (by decide) (by rfl) (by rfl)
      (by decide) (by decide)⟩

/-- **C1** counterexample: the buffer `"abtw"` already contains the bytes of
the placeholder `"tw"` that redaction of `"ab"` produces; after redaction
(`"twtw"`), unredaction rewrites *both* occurrences of `"tw"`, yielding
`"abab"` instead of the original `"abtw"` — the unrestricted round-trip
claim fails. -/
theorem c1_roundtrip_counterexample :
    applyDlpRedactionToBytes [⟨"k".toList, "regex".toList, ["ab".toList]⟩]
        (utf8Encode "abtw".toList) =
      Except.ok (utf8Encode "twtw".toList, [("tw".toList, "ab".toList)],
        [⟨"k".toList, "regex".toList, "ab".toList, "tw".toList, none⟩]) ∧
    applyDlpUnredactionToBytes [("tw".toList, "ab".toList)]
        (utf8Encode "twtw".toList) = utf8Encode "abab".toList ∧
    utf8Encode "abab".toList ≠ utf8Encode "abtw".toList :=
  ⟨by rfl, by rfl, by decide⟩

/-! ### Negative-context exclusion (C5) -/

theorem charCountPrefix_le (t : Str) : ∀ b, charCountPrefix t b ≤ t.length := by
  induction t with
  | nil => intro b; simp [charCountPrefix]
  | cons c rest ih =>
    intro b
    unfold charCountPrefix
    by_cases h : utf8SizeC c ≤ b
    · rw [if_pos h]
      have := ih (b - utf8SizeC c)
      simp only [List.length_cons]
      omega
    · rw [if_neg h]
      simp

theorem charCountPrefix_mono (t : Str) : ∀ {s e : Nat}, s ≤ e →
    charCountPrefix t s ≤ charCountPrefix t e := by
  induction t with
  | nil => intro s e _; simp [charCountPrefix]
  | cons c rest ih =>
    intro s e hse
    unfold charCountPrefix
    by_cases hs : utf8SizeC c ≤ s
    · rw [if_pos hs, if_pos (le_trans hs hse)]
      have := ih (Nat.sub_le_sub_right hse (utf8SizeC c))
      omega
    · rw [if_neg hs]
      simp

/-- **C5**: a positive match is discarded on context grounds iff some
negative regex matches the context window; the window computed by
`get_match_context` is exactly "up to 30 scalars before, the match itself,
up to 30 scalars after"; and with an empty negative set the collection
degenerates to the same loop with the context check removed. -/
theorem c5_negative_context_exclusion :
    (∀ (text : Str) (s e : Nat) (negs : List Str),
        isMatchExcludedByContext text s e negs = true ↔
          ∃ n ∈ negs, litIsMatch n (getMatchContext text s e) = true) ∧
    (∀ (text : Str) (s e : Nat), s ≤ e →
        getMatchContext text s e = claimContextWindow text s e) ∧
    (∀ (text : Str) (regexes : List Str) (minUnique : Int),
        collectMatchesWithNegativeContext text regexes [] minUnique =
          collectMatchesNoContextCheck text regexes minUnique) := by
  refine ⟨?_, ?_, ?_⟩
  · intro text s e negs
    unfold isMatchExcludedByContext
    cases negs with
    | nil => simp
    | cons n rest =>
      rw [if_neg (by simp)]
      simp [List.any_eq_true]
  · intro text s e hse
    unfold getMatchContext claimContextWindow
    simp only
    set cs := charCountPrefix text s with hcs
    set ce := charCountPrefix text e with hce
    have hcse : cs ≤ ce := charCountPrefix_mono text hse
    have hceL : ce ≤ text.length := charCountPrefix_le text e
    have hcsL : cs ≤ text.length := charCountPrefix_le text s
    have hprelen : (text.take cs).length = cs := by simp [hcsL]
    rw [hprelen]
    -- take to the context end splits as: take ce ++ (drop ce).take 30
    have hmin : min (ce + NEGATIVE_CONTEXT_WINDOW) text.length =
        ce + min NEGATIVE_CONTEXT_WINDOW (text.length - ce) := by omega
    have htail : (text.drop ce).take (min NEGATIVE_CONTEXT_WINDOW (text.length - ce)) =
        (text.drop ce).take NEGATIVE_CONTEXT_WINDOW := by
      by_cases hc : NEGATIVE_CONTEXT_WINDOW ≤ text.length - ce
      · rw [min_eq_left hc]
      · rw [min_eq_right (by omega)]
        have hlen : (text.drop ce).length = text.length - ce := by simp
        rw [← hlen, List.take_length]
        exact (List.take_of_length_le (by omega)).symm
    have hsplitEnd : text.take (min (ce + NEGATIVE_CONTEXT_WINDOW) text.length) =
        text.take ce ++ (text.drop ce).take NEGATIVE_CONTEXT_WINDOW := by
      rw [hmin, List.take_add, htail]
    rw [hsplitEnd]
    have htakece : (text.take ce).length = ce := by simp [hceL]
    rw [List.drop_append_of_le_length (by omega)]
    -- (take ce).drop (cs - 30) = (take cs).drop (cs - 30) ++ (take ce).drop cs
    have hsplitCe : text.take ce = text.take cs ++ (text.drop cs).take (ce - cs) := by
      rw [← List.take_add]
      congr 1
      omega
    have hdt : (text.take ce).drop cs = (text.drop cs).take (ce - cs) := by
      rw [List.drop_take]
    rw [hdt, hsplitCe, List.drop_append_of_le_length (by rw [hprelen]; omega)]
  · intro text regexes minUnique
    unfold collectMatchesWithNegativeContext collectMatchesNoContextCheck
    have hsp : ∀ (pat : Str) (sps : List (Nat × Nat)) (seen acc : List Str),
        collectFromSpans text pat [] minUnique sps seen acc =
          collectFromSpansNC pat minUnique sps seen acc := by
      intro pat sps
      induction sps with
      | nil => intro seen acc; rfl
      | cons sp rest ih =>
        intro seen acc
        unfold collectFromSpans collectFromSpansNC
        have hexcl : isMatchExcludedByContext text sp.1 sp.2 [] = false := rfl
        rw [hexcl]
        by_cases hseen : pat ∈ seen
        · rw [if_pos hseen, if_pos hseen, ih]
        · rw [if_neg hseen, if_neg hseen]
          simp only [if_neg, Bool.false_eq_true, if_false]
          by_cases hu : 0 < minUnique ∧ (countUniqueChars pat : Int) < minUnique
          · rw [if_pos hu, if_pos hu, ih]
          · rw [if_neg hu, if_neg hu, ih]
    have hfold : ∀ (regs : List Str) (st : List Str × List Str),
        regs.foldl
            (fun st pat => collectFromSpans text pat [] minUnique (findIterB pat text) st.1 st.2)
            st =
          regs.foldl
            (fun st pat => collectFromSpansNC pat minUnique (findIterB pat text) st.1 st.2)
            st := by
      intro regs
      induction regs with
      | nil => intro st; rfl
      | cons r rest ih =>
        intro st
        simp only [List.foldl_cons]
        rw [hsp, ih]
    rw [hfold]

/-- Witness for **C5** (the window-shape clause has the hypothesis
`s ≤ e`): on the text `"xxkeyzz"` with match span `[2, 5)`. -/
theorem c5_negative_context_exclusion_witness :
    (2 ≤ 5 ∧ getMatchContext "xxkeyzz".toList 2 5 = claimContextWindow "xxkeyzz".toList 2 5) ∧
    (isMatchExcludedByContext "xxkeyzz".toList 2 5 ["zz".toList] = true ↔
      ∃ n ∈ ["zz".toList], litIsMatch n (getMatchContext "xxkeyzz".toList 2 5) = true) :=
  ⟨⟨by omega, c5_negative_context_exclusion.2.1 "xxkeyzz".toList 2 5 (by omega)⟩,
    c5_negative_context_exclusion.1 "xxkeyzz".toList 2 5 ["zz".toList]⟩

/-! ### Soft-failure atomicity (C8) -/

/-- **C8**: if no pattern group is enabled, or the body does not parse as
JSON, `apply_dlp_redaction` returns the body byte-identically unchanged with
an empty replacement map and an empty detections list. -/
theorem c8_soft_failure_atomicity (patterns : List PatternGroup) (body : Str) :
    (patterns = [] → applyDlpRedaction patterns body = ⟨body, [], []⟩) ∧
    (parseJson body = none → applyDlpRedaction patterns body = ⟨body, [], []⟩) := by
  constructor
  · intro h
    subst h
    rfl
  · intro h
    unfold applyDlpRedaction
    by_cases hp : patterns.isEmpty
    · rw [if_pos hp]
    · rw [if_neg hp, h]

/-- Witness for **C8**: the empty pattern list, and a non-JSON body with one
enabled pattern. -/
theorem c8_soft_failure_atomicity_witness :
    applyDlpRedaction [] "x".toList = ⟨"x".toList, [], []⟩ ∧
    (parseJson "not json".toList = none ∧
      applyDlpRedaction [⟨"k".toList, "regex".toList, ["ab".toList]⟩] "not json".toList =
        ⟨"not json".toList, [], []⟩) :=
  ⟨(c8_soft_failure_atomicity [] "x".toList).1 rfl,
    ⟨by rfl,
      (c8_soft_failure_atomicity [⟨"k".toList, "regex".toList, ["ab".toList]⟩]
        "not json".toList).2 (by rfl)⟩⟩

/-! ### Role scoping (C4) -/

theorem lookupField_set_other (fields : List (Str × Json)) (k : Str) (v : Json)
    (k2 : Str) (hne : k2 ≠ k) :
    lookupField (fields.map (fun f => if f.1 = k then (f.1, v) else f)) k2 =
      lookupField fields k2 := by
  induction fields with
  | nil => rfl
  | cons f rest ih =>
    simp only [List.map_cons]
    by_cases hf : f.1 = k
    · rw [if_pos hf]
      unfold lookupField
      have hne2 : f.1 ≠ k2 := fun hc => hne ((hf.symm.trans hc).symm)
      rw [if_neg hne2, if_neg hne2]
      exact ih
    · rw [if_neg hf]
      unfold lookupField
      by_cases hk2 : f.1 = k2
      · rw [if_pos hk2, if_pos hk2]
      · rw [if_neg hk2, if_neg hk2]
        exact ih

theorem lookupField_set_same (fields : List (Str × Json)) (k : Str) (v : Json) :
    lookupField (fields.map (fun f => if f.1 = k then (f.1, v) else f)) k =
      (lookupField fields k).map (fun _ => v) := by
  induction fields with
  | nil => rfl
  | cons f rest ih =>
    simp only [List.map_cons]
    by_cases hf : f.1 = k
    · rw [if_pos hf]
      unfold lookupField
      rw [if_pos hf, if_pos hf]
      rfl
    · rw [if_neg hf]
      unfold lookupField
      rw [if_neg hf, if_neg hf]
      exact ih

theorem getField_setF_same {j : Json} {k : Str} {w : Json} (v : Json)
    (h : j.getField k = some w) : (setFieldExisting j k v).getField k = some v := by
  cases j with
  | obj fields =>
    show lookupField (fields.map (fun f => if f.1 = k then (f.1, v) else f)) k = some v
    rw [lookupField_set_same]
    have h2 : lookupField fields k = some w := h
    rw [h2]
    rfl
  | null => exact absurd h (by simp [Json.getField])
  | bool b => exact absurd h (by simp [Json.getField])
  | num n => exact absurd h (by simp [Json.getField])
  | str s => exact absurd h (by simp [Json.getField])
  | arr xs => exact absurd h (by simp [Json.getField])

theorem getField_setF_other (j : Json) (k : Str) (v : Json) (k2 : Str) (hne : k2 ≠ k) :
    (setFieldExisting j k v).getField k2 = j.getField k2 := by
  cases j with
  | obj fields =>
    show lookupField (fields.map (fun f => if f.1 = k then (f.1, v) else f)) k2 =
      lookupField fields k2
    exact lookupField_set_other fields k v k2 hne
  | null => rfl
  | bool b => rfl
  | num n => rfl
  | str s => rfl
  | arr xs => rfl

theorem processMessages_spec (patterns : List PatternGroup) :
    ∀ (ms : List Json) (idx : Nat) (st : RedState),
      (processMessages patterns idx ms st).1.length = ms.length ∧
      ∀ (i : Nat) (m : Json), ms[i]? = some m → getStrD m "role".toList ≠ "user".toList →
        (processMessages patterns idx ms st).1[i]? = some m := by
  intro ms
  induction ms with
  | nil =>
    intro idx st
    exact ⟨rfl, by intro i m h; simp at h⟩
  | cons m0 rest ih =>
    intro idx st
    unfold processMessages
    by_cases hrole : getStrD m0 "role".toList = "user".toList
    · rw [if_pos hrole]
      cases hc : m0.getField "content".toList with
      | some content =>
        dsimp only
        refine ⟨by simp [(ih _ _).1], ?_⟩
        intro i m hi hne
        cases i with
        | zero =>
          simp only [List.getElem?_cons_zero, Option.some.injEq] at hi
          subst hi
          exact absurd hrole hne
        | succ n =>
          simp only [List.getElem?_cons_succ] at hi ⊢
          exact (ih _ _).2 n m hi hne
      | none =>
        dsimp only
        refine ⟨by simp [(ih _ _).1], ?_⟩
        intro i m hi hne
        cases i with
        | zero =>
          simp only [List.getElem?_cons_zero, Option.some.injEq] at hi ⊢
          exact hi
        | succ n =>
          simp only [List.getElem?_cons_succ] at hi ⊢
          exact (ih _ _).2 n m hi hne
    · rw [if_neg hrole]
      dsimp only
      refine ⟨by simp [(ih _ _).1], ?_⟩
      intro i m hi hne
      cases i with
      | zero =>
        simp only [List.getElem?_cons_zero, Option.some.injEq] at hi ⊢
        exact hi
      | succ n =>
        simp only [List.getElem?_cons_succ] at hi ⊢
        exact (ih _ _).2 n m hi hne

theorem processInput_spec (patterns : List PatternGroup) :
    ∀ (items : List Json) (idx : Nat) (st : RedState),
      (processInput patterns idx items st).1.length = items.length ∧
      ∀ (i : Nat) (it : Json), items[i]? = some it →
        ¬(getStrD it "type".toList = "message".toList ∧
            getStrD it "role".toList = "user".toList) →
        getStrD it "type".toList ≠ "function_call_output".toList →
        (processInput patterns idx items st).1[i]? = some it := by
  intro items
  induction items with
  | nil =>
    intro idx st
    exact ⟨rfl, by intro i it h; simp at h⟩
  | cons it0 rest ih =>
    intro idx st
    have hkeep : ∀ (st2 : RedState) (hd : Json),
        hd = it0 →
        ((hd :: (processInput patterns (idx + 1) rest st2).1 : List Json).length
            = (it0 :: rest).length ∧
          ∀ (i : Nat) (it : Json), (it0 :: rest)[i]? = some it →
            ¬(getStrD it "type".toList = "message".toList ∧
                getStrD it "role".toList = "user".toList) →
            getStrD it "type".toList ≠ "function_call_output".toList →
            (hd :: (processInput patterns (idx + 1) rest st2).1 : List Json)[i]? = some it) := by
      intro st2 hd hhd
      subst hhd
      refine ⟨by simp [(ih _ _).1], ?_⟩
      intro i it hi h1 h2
      cases i with
      | zero =>
        simp only [List.getElem?_cons_zero, Option.some.injEq] at hi ⊢
        exact hi
      | succ n =>
        simp only [List.getElem?_cons_succ] at hi ⊢
        exact (ih _ _).2 n it hi h1 h2
    unfold processInput
    by_cases htype : getStrD it0 "type".toList = "message".toList
    · rw [if_pos htype]
      by_cases hrole : getStrD it0 "role".toList = "user".toList
      · rw [if_pos hrole]
        cases hc : it0.getField "content".toList with
        | some content =>
          dsimp only
          refine ⟨by simp [(ih _ _).1], ?_⟩
          intro i it hi h1 h2
          cases i with
          | zero =>
            simp only [List.getElem?_cons_zero, Option.some.injEq] at hi
            subst hi
            exact absurd ⟨htype, hrole⟩ h1
          | succ n =>
            simp only [List.getElem?_cons_succ] at hi ⊢
            exact (ih _ _).2 n it hi h1 h2
        | none =>
          dsimp only
          exact hkeep st it0 rfl
      · rw [if_neg hrole]
        dsimp only
        exact hkeep st it0 rfl
    · rw [if_neg htype]
      by_cases hfco : getStrD it0 "type".toList = "function_call_output".toList
      · rw [if_pos hfco]
        cases hc : it0.getField "output".toList with
        | some out =>
          dsimp only
          refine ⟨by simp [(ih _ _).1], ?_⟩
          intro i it hi h1 h2
          cases i with
          | zero =>
            simp only [List.getElem?_cons_zero, Option.some.injEq] at hi
            subst hi
            exact absurd hfco h2
          | succ n =>
            simp only [List.getElem?_cons_succ] at hi ⊢
            exact (ih _ _).2 n it hi h1 h2
        | none =>
          dsimp only
          exact hkeep st it0 rfl
      · rw [if_neg hfco]
        dsimp only
        exact hkeep st it0 rfl

/-- **C4**: role scoping of the structured redaction.  For every JSON body:
every element of the Claude `messages[]` array whose role is not `"user"`
appears unchanged at the same position in the output, and every element of
the Codex `input[]` array that is neither a `"message"` with role `"user"`
nor a `"function_call_output"` appears unchanged at the same position. -/
theorem c4_role_scoping (patterns : List PatternGroup) (j : Json) :
    (∀ ms : List Json, j.getField "messages".toList = some (.arr ms) →
      ∃ ms2 : List Json,
        (redactJsonTop patterns j).1.getField "messages".toList = some (.arr ms2) ∧
        ms2.length = ms.length ∧
        ∀ (i : Nat) (m : Json), ms[i]? = some m →
          getStrD m "role".toList ≠ "user".toList → ms2[i]? = some m) ∧
    (∀ items : List Json, j.getField "input".toList = some (.arr items) →
      ∃ items2 : List Json,
        (redactJsonTop patterns j).1.getField "input".toList = some (.arr items2) ∧
        items2.length = items.length ∧
        ∀ (i : Nat) (it : Json), items[i]? = some it →
          ¬(getStrD it "type".toList = "message".toList ∧
              getStrD it "role".toList = "user".toList) →
          getStrD it "type".toList ≠ "function_call_output".toList →
          items2[i]? = some it) := by
  have hmi : ("messages".toList : Str) ≠ "input".toList := by decide
  have him : ("input".toList : Str) ≠ "messages".toList := by decide
  constructor
  · intro ms hms
    have hspec := processMessages_spec patterns ms 0 ⟨[], [], 1⟩
    refine ⟨(processMessages patterns 0 ms ⟨[], [], 1⟩).1, ?_, hspec.1, hspec.2⟩
    unfold redactJsonTop
    rw [hms]
    dsimp only
    have hmsg1 : (setFieldExisting j "messages".toList
        (.arr (processMessages patterns 0 ms ⟨[], [], 1⟩).1)).getField "messages".toList =
        some (.arr (processMessages patterns 0 ms ⟨[], [], 1⟩).1) :=
      getField_setF_same _ hms
    cases hin : (setFieldExisting j "messages".toList
        (.arr (processMessages patterns 0 ms ⟨[], [], 1⟩).1)).getField "input".toList with
    | none => exact hmsg1
    | some v =>
      cases v with
      | arr its =>
        dsimp only
        rw [getField_setF_other _ _ _ _ hmi]
        exact hmsg1
      | null => exact hmsg1
      | bool b => exact hmsg1
      | num n => exact hmsg1
      | str s => exact hmsg1
      | obj fs => exact hmsg1
  · intro items hin0
    unfold redactJsonTop
    cases hms : j.getField "messages".toList with
    | some v =>
      cases v with
      | arr ms =>
        dsimp only
        have hin1 : (setFieldExisting j "messages".toList
            (.arr (processMessages patterns 0 ms ⟨[], [], 1⟩).1)).getField "input".toList =
            some (.arr items) := by
          rw [getField_setF_other _ _ _ _ him]
          exact hin0
        rw [hin1]
        dsimp only
        refine ⟨(processInput patterns 0 items
            (processMessages patterns 0 ms ⟨[], [], 1⟩).2).1, ?_, ?_, ?_⟩
        · exact getField_setF_same _ hin1
        · exact (processInput_spec patterns items 0 _).1
        · exact (processInput_spec patterns items 0 _).2
      | null =>
        dsimp only
        rw [hin0]
        dsimp only
        exact ⟨(processInput patterns 0 items ⟨[], [], 1⟩).1, getField_setF_same _ hin0,
          (processInput_spec patterns items 0 _).1, (processInput_spec patterns items 0 _).2⟩
      | bool b =>
        dsimp only
        rw [hin0]
        dsimp only
        exact ⟨(processInput patterns 0 items ⟨[], [], 1⟩).1, getField_setF_same _ hin0,
          (processInput_spec patterns items 0 _).1, (processInput_spec patterns items 0 _).2⟩
      | num n =>
        dsimp only
        rw [hin0]
        dsimp only
        exact ⟨(processInput patterns 0 items ⟨[], [], 1⟩).1, getField_setF_same _ hin0,
          (processInput_spec patterns items 0 _).1, (processInput_spec patterns items 0 _).2⟩
      | str s =>
        dsimp only
        rw [hin0]
        dsimp only
        exact ⟨(processInput patterns 0 items ⟨[], [], 1⟩).1, getField_setF_same _ hin0,
          (processInput_spec patterns items 0 _).1, (processInput_spec patterns items 0 _).2⟩
      | obj fs =>
        dsimp only
        rw [hin0]
        dsimp only
        exact ⟨(processInput patterns 0 items ⟨[], [], 1⟩).1, getField_setF_same _ hin0,
          (processInput_spec patterns items 0 _).1, (processInput_spec patterns items 0 _).2⟩
    | none =>
      dsimp only
      rw [hin0]
      dsimp only
      exact ⟨(processInput patterns 0 items ⟨[], [], 1⟩).1, getField_setF_same _ hin0,
        (processInput_spec patterns items 0 _).1, (processInput_spec patterns items 0 _).2⟩

/-- Witness for **C4** on a concrete body: a system message and a reasoning
item pass through redaction unchanged. -/
theorem c4_role_scoping_witness :
    (redactJsonTop [⟨"k".toList, "regex".toList, ["ab".toList]⟩]
        (mkObj [("messages".toList, Json.arr [mkObj [("role".toList, Json.str "system".toList)]]),
          ("input".toList, Json.arr [mkObj [("type".toList, Json.str "reasoning".toList)]])])).1.getField
        "messages".toList =
      some (Json.arr [mkObj [("role".toList, Json.str "system".toList)]]) ∧
    (redactJsonTop [⟨"k".toList, "regex".toList, ["ab".toList]⟩]
        (mkObj [("messages".toList, Json.arr [mkObj [("role".toList, Json.str "system".toList)]]),
          ("input".toList, Json.arr [mkObj [("type".toList, Json.str "reasoning".toList)]])])).1.getField
        "input".toList =
      some (Json.arr [mkObj [("type".toList, Json.str "reasoning".toList)]]) := by
  obtain ⟨ms2, h1, h2, h3⟩ :=
    (c4_role_scoping [⟨"k".toList, "regex".toList, ["ab".toList]⟩]
      (mkObj [("messages".toList, Json.arr [mkObj [("role".toList, Json.str "system".toList)]]),
        ("input".toList, Json.arr [mkObj [("type".toList, Json.str "reasoning".toList)]])])).1
      [mkObj [("role".toList, Json.str "system".toList)]] (by rfl)
  obtain ⟨is2, g1, g2, g3⟩ :=
    (c4_role_scoping [⟨"k".toList, "regex".toList, ["ab".toList]⟩]
      (mkObj [("messages".toList, Json.arr [mkObj [("role".toList, Json.str "system".toList)]]),
        ("input".toList, Json.arr [mkObj [("type".toList, Json.str "reasoning".toList)]])])).2
      [mkObj [("type".toList, Json.str "reasoning".toList)]] (by rfl)
  have hm := h3 0 (mkObj [("role".toList, Json.str "system".toList)]) rfl (by decide)
  have hg := g3 0 (mkObj [("type".toList, Json.str "reasoning".toList)]) rfl (by decide) (by decide)
  constructor
  · cases ms2 with
    | nil => simp at h2
    | cons a t =>
      cases t with
      | nil =>
        simp only [List.getElem?_cons_zero, Option.some.injEq] at hm
        subst hm
        exact h1
      | cons b t2 => simp at h2
  · cases is2 with
    | nil => simp at g2
    | cons a t =>
      cases t with
      | nil =>
        simp only [List.getElem?_cons_zero, Option.some.injEq] at hg
        subst hg
        exact g1
      | cons b t2 => simp at g2

/-! ### Codex streaming tool-call reconstruction (C7) -/

theorem updateAssoc_head (k : Str) (f : Str × Str × Str → Str × Str × Str)
    (v : Str × Str × Str) (rest : List (Str × (Str × Str × Str))) :
    updateAssoc k f ((k, v) :: rest) = (k, f v) :: rest := by
  unfold updateAssoc
  rw [if_pos rfl]

theorem containsAssoc_head (k : Str) (v : Str × Str × Str)
    (rest : List (Str × (Str × Str × Str))) :
    containsAssoc k ((k, v) :: rest) = true := by
  simp [containsAssoc, List.find?_cons]

theorem codexStep_added (A X N : Str) (fcm : List (Str × (Str × Str × Str)))
    (m : ResponseMetadataM) :
    codexEventStep (fcm, m) (codexAddedEvent A X N) = (insertAssoc A (X, N, []) fcm, m) := rfl

theorem codexStep_delta (A d X N acc : Str) (m : ResponseMetadataM) :
    codexEventStep ([(A, (X, N, acc))], m) (codexDeltaEvent A d) =
      ([(A, (X, N, acc ++ d))], m) := by
  have h0 : codexEventStep ([(A, (X, N, acc))], m) (codexDeltaEvent A d) =
      (updateAssoc A (fun v => (v.1, v.2.1, v.2.2 ++ d)) [(A, (X, N, acc))], m) := rfl
  rw [h0, updateAssoc_head]

theorem codexDeltaFold (A X N : Str) (m : ResponseMetadataM) :
    ∀ (ds : List Str) (acc : Str),
      ((ds.map (codexDeltaEvent A)).foldl codexEventStep ([(A, (X, N, acc))], m)) =
        ([(A, (X, N, acc ++ ds.flatten))], m) := by
  intro ds
  induction ds with
  | nil => intro acc; simp
  | cons d rest ih =>
    intro acc
    simp only [List.map_cons, List.foldl_cons, codexStep_delta, ih, List.flatten_cons]
    rw [List.append_assoc]

theorem codexOutputFold_skip (A : Str) :
    ∀ (out : List Json) (acc : List (Str × (Str × Str × Str))),
      containsAssoc A acc = true →
      (∀ it ∈ out, ∀ t : Str, it.getField "type".toList = some (.str t) →
        t = "function_call".toList → getStrD it "id".toList = A) →
      out.foldl
        (fun acc item =>
          match item.getField "type".toList with
          | some (.str t) =>
            if t = "function_call".toList then
              if containsAssoc (getStrD item "id".toList) acc then acc
              else
                acc ++ [(getStrD item "id".toList,
                  (getStrD item "call_id".toList, getStrD item "name".toList,
                    getStrD item "arguments".toList))]
            else acc
          | _ => acc)
        acc = acc := by
  intro out
  induction out with
  | nil => intro acc _ _; rfl
  | cons item rest ih =>
    intro acc hmem hids
    simp only [List.foldl_cons]
    have hstep :
        (match item.getField "type".toList with
          | some (.str t) =>
            if t = "function_call".toList then
              if containsAssoc (getStrD item "id".toList) acc then acc
              else
                acc ++ [(getStrD item "id".toList,
                  (getStrD item "call_id".toList, getStrD item "name".toList,
                    getStrD item "arguments".toList))]
            else acc
          | _ => acc) = acc := by
      cases hty : item.getField "type".toList with
      | none => rfl
      | some v =>
        cases v with
        | str t =>
          dsimp only
          by_cases hfc : t = "function_call".toList
          · rw [if_pos hfc]
            have hid := hids item (List.mem_cons_self item rest) t hty hfc
            rw [hid, if_pos hmem]
          · rw [if_neg hfc]
        | null => rfl
        | bool b => rfl
        | num n => rfl
        | arr xs => rfl
        | obj fs => rfl
    rw [hstep]
    exact ih acc hmem (fun it hit => hids it (List.mem_cons_of_mem item hit))

theorem codexStep_completed (A : Str) (v : Str × Str × Str) (m : ResponseMetadataM)
    (resp : Json)
    (hout : ∀ xs : List Json, resp.getField "output".toList = some (.arr xs) →
      ∀ it ∈ xs, ∀ t : Str, it.getField "type".toList = some (.str t) →
        t = "function_call".toList → getStrD it "id".toList = A) :
    (codexEventStep ([(A, v)], m) (codexCompletedEvent resp)).1 = [(A, v)] := by
  have hty : getStrD (codexCompletedEvent resp) "type".toList =
      "response.completed".toList := rfl
  have hresp : (codexCompletedEvent resp).getField "response".toList = some resp := rfl
  unfold codexEventStep
  rw [hty, if_neg (by decide), if_neg (by decide), if_pos rfl, hresp]
  dsimp only
  cases ho : resp.getField "output".toList with
  | none => rfl
  | some w =>
    cases w with
    | arr out =>
      dsimp only
      exact codexOutputFold_skip A out [(A, v)] (containsAssoc_head A v []) (hout out ho)
    | null => rfl
    | bool b => rfl
    | num n => rfl
    | str s => rfl
    | obj fs => rfl

/-- **C7**: for every SSE body whose `data: ` events are exactly one
`response.output_item.added` for a `function_call` with `item.id = A`,
`call_id = X`, name `N`, then any number of
`response.function_call_arguments.delta` fragments matched by `item_id = A`,
then a `response.completed` whose final output contains no other function
call, the streaming parse returns exactly one tool call: its id is the
external `call_id` `X`, its name is `N`, and its input is the JSON value
parsed from the concatenation of the delta fragments. -/
theorem c7_codex_streaming_tool_call (body A X N : Str) (deltas : List Str)
    (resp inputJ : Json)
    (hev : dataEvents body =
      codexAddedEvent A X N :: deltas.map (codexDeltaEvent A) ++ [codexCompletedEvent resp])
    (hout : ∀ xs : List Json, resp.getField "output".toList = some (.arr xs) →
      ∀ it ∈ xs, ∀ t : Str, it.getField "type".toList = some (.str t) →
        t = "function_call".toList → getStrD it "id".toList = A)
    (hparse : parseJson deltas.flatten = some inputJ) :
    (codexParseResponseMetadataStreaming body).tool_calls = [⟨X, N, inputJ⟩] := by
  unfold codexParseResponseMetadataStreaming
  rw [hev]
  simp only [List.foldl_cons, List.foldl_append]
  rw [codexStep_added]
  have hins : insertAssoc A (X, N, ([] : Str)) [] = [(A, (X, N, ([] : Str)))] := rfl
  rw [hins, codexDeltaFold]
  simp only [List.nil_append, List.foldl_cons, List.foldl_nil]
  set m1 := { defaultResponseMetadata with
    has_thinking := occursInL "\"type\":\"reasoning\"".toList body } with hm1
  have hfinal := codexStep_completed A (X, N, deltas.flatten) m1 resp hout
  cases hc : codexEventStep ([(A, (X, N, deltas.flatten))], m1) (codexCompletedEvent resp) with
  | mk fcm meta =>
    rw [hc] at hfinal
    simp only at hfinal
    simp only [hfinal, List.map_cons, List.map_nil, hparse]
    rfl

set_option maxRecDepth 4000 in
/-- Witness for **C7**: the spec's own transcript — one
`response.output_item.added` (`function_call`, `item.id = "A"`,
`call_id = "X"`, `name = "read_file"`), two argument deltas carrying the
fragments of `(\x7b"path": "/etc/passwd"\x7d)`, and a `response.completed` —
yields exactly the tool call `(X, read_file, \x7b"path":"/etc/passwd"\x7d)`. -/
theorem c7_codex_streaming_tool_call_witness :
    (codexParseResponseMetadataStreaming
        ("data: \x7b\"type\":\"response.output_item.added\",\"item\":\x7b\"id\":\"A\",\"call_id\":\"X\",\"name\":\"read_file\",\"type\":\"function_call\"\x7d\x7d\n" ++
          "data: \x7b\"type\":\"response.function_call_arguments.delta\",\"item_id\":\"A\",\"delta\":\"\x7b\\\"path\\\":\"\x7d\n" ++
          "data: \x7b\"type\":\"response.function_call_arguments.delta\",\"item_id\":\"A\",\"delta\":\" \\\"/etc/passwd\\\"\x7d\"\x7d\n" ++
          "data: \x7b\"type\":\"response.completed\",\"response\":\x7b\"status\":\"completed\",\"usage\":\x7b\"input_tokens\":100,\"output_tokens\":50\x7d\x7d\x7d\n").toList).tool_calls =
      [⟨"X".toList, "read_file".toList,
        mkObj [("path".toList, Json.str "/etc/passwd".toList)]⟩] :=
  c7_codex_streaming_tool_call _ "A".toList "X".toList "read_file".toList
    ["\x7b\"path\":".toList, " \"/etc/passwd\"\x7d".toList]
    (mkObj [("status".toList, Json.str "completed".toList),
      ("usage".toList, mkObj [("input_tokens".toList, Json.num 100),
        ("output_tokens".toList, Json.num 50)])])
    (mkObj [("path".toList, Json.str "/etc/passwd".toList)])
    (by rfl) (fun xs h => nomatch h) (by rfl)

/-! ### Connect-RPC frame handling (C6) -/

theorem exists_five_cons {rem : List Nat} (h : 5 ≤ rem.length) :
    ∃ t l1 l2 l3 l4 rest, rem = t :: l1 :: l2 :: l3 :: l4 :: rest :=
  match rem, h with
  | t :: l1 :: l2 :: l3 :: l4 :: rest, _ => ⟨t, l1, l2, l3, l4, rest, rfl⟩
  | [], h => absurd h (by simp)
  | [_], h => absurd h (by simp)
  | [_, _], h => absurd h (by simp)
  | [_, _, _], h => absurd h (by simp)
  | [_, _, _, _], h => absurd h (by simp)

theorem parseConnectFramesGo_fuel (gz : List Nat → Option (List Nat)) :
    ∀ (f1 f2 : Nat) (rem : List Nat), rem.length < f1 → rem.length < f2 →
      parseConnectFramesGo gz f1 rem = parseConnectFramesGo gz f2 rem := by
  intro f1
  induction f1 with
  | zero => intro f2 rem h1 _; exact absurd h1 (Nat.not_lt_zero _)
  | succ f1 ih =>
    intro f2 rem h1 h2
    cases f2 with
    | zero => exact absurd h2 (Nat.not_lt_zero _)
    | succ f2 =>
      by_cases h5 : rem.length < 5
      · unfold parseConnectFramesGo
        rw [if_pos h5, if_pos h5]
      · obtain ⟨t, l1, l2, l3, l4, rest, rfl⟩ := exists_five_cons (Nat.le_of_not_lt h5)
        unfold parseConnectFramesGo
        rw [if_neg h5, if_neg h5]
        dsimp only
        by_cases ht : 3 < t
        · rw [if_pos ht, if_pos ht]
        · rw [if_neg ht, if_neg ht]
          by_cases hfit : rest.length < ((l1 * 256 + l2) * 256 + l3) * 256 + l4
          · rw [if_pos hfit, if_pos hfit]
          · rw [if_neg hfit, if_neg hfit]
            have hlen : (rest.drop (((l1 * 256 + l2) * 256 + l3) * 256 + l4)).length ≤
                rest.length := by simp
            have hr : (t :: l1 :: l2 :: l3 :: l4 :: rest).length = rest.length + 5 := by simp
            rw [ih f2 _ (by omega) (by omega)]

/-- **C6** (amended): for every buffer whose first byte is at most 3 and
whose next four bytes read big-endian give a *positive* length with
`5 + length ≤ buffer`, `extract_all_strings` splits the buffer into Connect
frames `(type, 4-byte big-endian length, payload)` — gzip-decompressing the
payload of a type-1 or type-3 frame — and extracts strings frame by frame.
(The source additionally requires `length > 0`, which the original claim
omits; see the counterexample.) -/
theorem c6_connect_frames (gunzip : List Nat → Option (List Nat)) (data : List Nat)
    (h5 : 5 ≤ data.length) (ht : data.headD 0 ≤ 3)
    (hpos : 0 < be4At data) (hfit : be4At data + 5 ≤ data.length) :
    (∃ t l1 l2 l3 l4 rest, data = t :: l1 :: l2 :: l3 :: l4 :: rest ∧
      be4At data = ((l1 * 256 + l2) * 256 + l3) * 256 + l4 ∧
      parseConnectFrames gunzip data =
        (if t = 1 ∨ t = 3 then
            (gunzip (rest.take (be4At data))).getD (rest.take (be4At data))
          else rest.take (be4At data)) ::
          parseConnectFrames gunzip (rest.drop (be4At data))) ∧
    parseConnectFrames gunzip data ≠ [] ∧
    extractAllStrings gunzip data =
      (parseConnectFrames gunzip data).flatMap extractFrameStrings := by
  obtain ⟨t, l1, l2, l3, l4, rest, rfl⟩ := exists_five_cons h5
  have hbe : be4At (t :: l1 :: l2 :: l3 :: l4 :: rest) =
      ((l1 * 256 + l2) * 256 + l3) * 256 + l4 := rfl
  have hhd : (t :: l1 :: l2 :: l3 :: l4 :: rest).headD 0 = t := rfl
  rw [hhd] at ht
  have hlen : (t :: l1 :: l2 :: l3 :: l4 :: rest).length = rest.length + 5 := by simp
  have hml : ((l1 * 256 + l2) * 256 + l3) * 256 + l4 ≤ rest.length := by
    rw [hbe] at hfit
    omega
  have hunfold : parseConnectFrames gunzip (t :: l1 :: l2 :: l3 :: l4 :: rest) =
      (if t = 1 ∨ t = 3 then
          (gunzip (rest.take (((l1 * 256 + l2) * 256 + l3) * 256 + l4))).getD
            (rest.take (((l1 * 256 + l2) * 256 + l3) * 256 + l4))
        else rest.take (((l1 * 256 + l2) * 256 + l3) * 256 + l4)) ::
        parseConnectFrames gunzip
          (rest.drop (((l1 * 256 + l2) * 256 + l3) * 256 + l4)) := by
    show parseConnectFramesGo gunzip ((t :: l1 :: l2 :: l3 :: l4 :: rest).length + 1)
        (t :: l1 :: l2 :: l3 :: l4 :: rest) = _
    rw [hlen]
    unfold parseConnectFramesGo
    rw [if_neg (by simp)]
    dsimp only
    rw [if_neg (by omega), if_neg (by omega)]
    congr 1
    apply parseConnectFramesGo_fuel
    · simp only [List.length_drop]
      omega
    · omega
  refine ⟨⟨t, l1, l2, l3, l4, rest, rfl, hbe, by rw [hbe]; exact hunfold⟩, ?_, ?_⟩
  · rw [hunfold]
    simp
  · unfold extractAllStrings
    rw [if_neg (by simp)]
    have hgz : ¬ gzipMagic (t :: l1 :: l2 :: l3 :: l4 :: rest) := by
      unfold gzipMagic
      rw [hhd]
      omega
    rw [if_neg hgz]
    rw [if_pos ⟨by rw [hlen]; omega, by rw [hhd]; exact ht, hpos, hfit, by
      rw [hunfold]; simp⟩]

/-- Witness for the amended **C6**: the buffer `00 00 00 00 02 41 42` is one
type-0 frame with the two-byte payload `"AB"`. -/
theorem c6_connect_frames_witness :
    (5 ≤ ([0, 0, 0, 0, 2, 65, 66] : List Nat).length ∧
      ([0, 0, 0, 0, 2, 65, 66] : List Nat).headD 0 ≤ 3 ∧
      0 < be4At [0, 0, 0, 0, 2, 65, 66] ∧
      be4At [0, 0, 0, 0, 2, 65, 66] + 5 ≤ ([0, 0, 0, 0, 2, 65, 66] : List Nat).length) ∧
    extractAllStrings (fun _ => none) [0, 0, 0, 0, 2, 65, 66] =
      (parseConnectFrames (fun _ => none) [0, 0, 0, 0, 2, 65, 66]).flatMap
        extractFrameStrings :=
  ⟨by decide,
    (c6_connect_frames (fun _ => none) [0, 0, 0, 0, 2, 65, 66]
      (by decide) (by decide) (by decide) (by decide)).2.2⟩

/-- **C6** counterexample: the buffer
`02 00 00 00 00 | 00 00 00 00 0D | 0A 0B "hello world"` satisfies the
claim's conditions (first byte 2 ∈ {0,1,2,3}, big-endian length 0 with
`5 + 0 ≤ 23`), and frame-wise extraction of its Connect frames would yield
`"hello world"` from the second frame — but `extract_all_strings` requires
`length > 0`, takes the unframed path, and extracts nothing.  (No gzip path
is reachable here, so the decompressor instantiation is irrelevant.) -/
theorem c6_counterexample :
    (5 ≤ (([2, 0, 0, 0, 0, 0, 0, 0, 0, 13, 10, 11] ++
          utf8Encode "hello world".toList : List Nat)).length ∧
      (([2, 0, 0, 0, 0, 0, 0, 0, 0, 13, 10, 11] ++
          utf8Encode "hello world".toList : List Nat)).headD 0 ≤ 3 ∧
      be4At ([2, 0, 0, 0, 0, 0, 0, 0, 0, 13, 10, 11] ++
          utf8Encode "hello world".toList) + 5 ≤
        (([2, 0, 0, 0, 0, 0, 0, 0, 0, 13, 10, 11] ++
          utf8Encode "hello world".toList : List Nat)).length) ∧
    (parseConnectFrames (fun _ => none)
        ([2, 0, 0, 0, 0, 0, 0, 0, 0, 13, 10, 11] ++
          utf8Encode "hello world".toList)).flatMap extractFrameStrings =
      ["hello world".toList] ∧
    extractAllStrings (fun _ => none)
        ([2, 0, 0, 0, 0, 0, 0, 0, 0, 13, 10, 11] ++
          utf8Encode "hello world".toList) = [] :=
  ⟨by decide, by rfl, by rfl⟩

/-! ### Fail-open on unreadable files (C9) -/

/-- **C9**: a `before_read_file` or `before_tab_file_read` request that
carries no inline content and whose file cannot be read answers HTTP 200
with permission `"allow"` and no messages — for *every* detection function,
i.e. no pattern detection influences the outcome. -/
theorem c9_fail_open_unreadable (checkDlp : Str → List DlpDetectionM)
    (readF : Str → Option Str) (input : BeforeReadFileInputM)
    (input2 : BeforeTabFileReadInputM)
    (h1 : input.content = none) (h2 : readF input.file_path = none)
    (h3 : input2.content = none) (h4 : readF input2.file_path = none) :
    beforeReadFileHandler checkDlp readF input = (200, ⟨"allow".toList, none, none⟩) ∧
    beforeTabFileReadHandler checkDlp readF input2 = (200, ⟨"allow".toList⟩) := by
  constructor
  · unfold beforeReadFileHandler
    rw [h1, h2]
  · unfold beforeTabFileReadHandler
    rw [h3, h4]

/-- Witness for **C9**: a concrete unreadable-file request, with a detection
function that would flag anything — the handler still allows. -/
theorem c9_fail_open_unreadable_witness :
    beforeReadFileHandler
      (fun _ => [⟨"k".toList, "keyword".toList, "v".toList, "p".toList, none⟩])
      (fun _ => none)
      ⟨[], [], [], [], [], [], none, "/tmp/missing".toList, none⟩ =
      (200, ⟨"allow".toList, none, none⟩) ∧
    beforeTabFileReadHandler
      (fun _ => [⟨"k".toList, "keyword".toList, "v".toList, "p".toList, none⟩])
      (fun _ => none)
      ⟨[], [], [], [], [], [], none, "/tmp/missing".toList, none⟩ =
      (200, ⟨"allow".toList⟩) :=
  c9_fail_open_unreadable
    (fun _ => [⟨"k".toList, "keyword".toList, "v".toList, "p".toList, none⟩])
    (fun _ => none)
    ⟨[], [], [], [], [], [], none, "/tmp/missing".toList, none⟩
    ⟨[], [], [], [], [], [], none, "/tmp/missing".toList, none⟩
    rfl rfl rfl rfl
